import Mathlib

/-!
Verification of the `rosbags` typesys core (`src/rosbags/typesys/base.py` and
`src/rosbags/typesys/msg.py`): the MSG-name normalizer, the field-type
resolver, the legacy MD5 definition hash (`gendefhash` / `generate_msgdef`)
and the structural RIHS01 SHA-256 hash (`hash_rihs01`), as a shallow
embedding in Lean.  Python strings are modelled as Lean `String`s, Python
ints as `Int`, Python dicts as insertion-ordered association lists, raised
exceptions as an `Except` error channel, and the recursion of the two hash
generators is made total with an explicit fuel parameter.
-/

set_option maxRecDepth 10000

namespace Rosbags

/-! ### Character-list splitting and joining

`PurePosixPath` (used throughout `msg.py`) is modelled on slash-separated
segment lists.  `splitSlash` is plain splitting on `'/'` (it never returns
`[]`); `joinSlash` is its inverse interleaving of `'/'`.
-/

/-- Split a character list at every `'/'`.  `splitSlash "a/b" = [a, b]`,
`splitSlash "" = [[]]`; the result is never empty and its elements never
contain `'/'`. -/
def splitSlash : List Char → List (List Char)
  | [] => [[]]
  | c :: cs =>
    if c = '/' then [] :: splitSlash cs
    else
      match splitSlash cs with
      | s :: ss => (c :: s) :: ss
      | [] => [[c]]

/-- Interleave `'/'` between segments; left inverse of `splitSlash`. -/
def joinSlash : List (List Char) → List Char
  | [] => []
  | [s] => s
  | s :: ss => s ++ '/' :: joinSlash ss

/-- Interleave a multi-character separator between segments (for
`', '.join`-style renderings). -/
def joinWith2 (sep : List Char) : List (List Char) → List Char
  | [] => []
  | [s] => s
  | s :: ss => s ++ sep ++ joinWith2 sep ss

/-- Bool test: does `pat` occur as a contiguous sublist of `l`?
Models the Python substring test `pat in s`. -/
def hasSub (pat l : List Char) : Bool :=
  (List.range (l.length + 1)).any fun i => pat.isPrefixOf (l.drop i)

/-! ### Python dict model

Insertion-ordered association list with overwrite-in-place semantics,
exactly as CPython dicts behave: inserting an existing key updates the
value but keeps the key's position; a new key is appended at the end.
-/

/-- Insert `(k, v)` into an insertion-ordered dict. -/
def dictInsert {K V : Type} [DecidableEq K] (d : List (K × V)) (k : K) (v : V) :
    List (K × V) :=
  if d.any fun p => p.1 = k then
    d.map fun p => if p.1 = k then (k, v) else p
  else d ++ [(k, v)]

/-- Dict lookup. -/
def dictGet {K V : Type} [DecidableEq K] (d : List (K × V)) (k : K) : Option V :=
  (d.find? fun p => p.1 = k).map (·.2)

/-- Key-membership test, Python's `k in d`. -/
def dictHas {K V : Type} [DecidableEq K] (d : List (K × V)) (k : K) : Bool :=
  d.any fun p => p.1 = k

/-- Build a Python dict from a key/value list, later entries overwriting
earlier ones (models both `dict(pairs)` and comprehension semantics). -/
def dictOf {K V : Type} [DecidableEq K] (l : List (K × V)) : List (K × V) :=
  l.foldl (fun d p => dictInsert d p.1 p.2) []

/-! ### `PurePosixPath` model

A relative POSIX path is its list of segments; `pathParts` drops empty
segments and single dots just as `PurePosixPath` normalization does (`..`
never occurs in this subsystem's inputs).  `pathStr` renders a path,
giving `"."` for the empty path, matching `str(PurePosixPath(''))`.
-/

/-- Segments of `PurePosixPath(s)` for a relative path `s`. -/
def pathParts (l : List Char) : List (List Char) :=
  (splitSlash l).filter fun seg => ¬(seg = [] ∨ seg = ['.'])

/-- `path.parent` on segment lists. -/
def pParent (parts : List (List Char)) : List (List Char) :=
  parts.dropLast

/-- `path.name` on segment lists (`''` for the empty path). -/
def pName (parts : List (List Char)) : List Char :=
  (parts.getLast?).getD []

/-- `str(path)` on segment lists. -/
def pathStr (parts : List (List Char)) : List Char :=
  if parts = [] then ['.'] else joinSlash parts

/-- The segment `msg`. -/
def msgSeg : List Char := ['m', 's', 'g']

/-- The leaf (`PurePosixPath(s).name`) of a string's character list. -/
def leafOf (l : List Char) : List Char := pName (pathParts l)

/-! ### Data model

Field descriptors mirror the runtime tuples of `msg.py` / `base.py`
(`rosbags.interfaces.Nodetype`: BASE = 1, NAME = 2, ARRAY = 3,
SEQUENCE = 4).  The MSG visitor always builds BASE payloads as a
`(basename, bound)` pair (`visit_simple_type_spec`), whereas
`hash_rihs01`'s internal sentinel field uses a bare basename string
`(1, 'uint8')`; `BaseRest` keeps both runtime shapes apart.
-/

/-- Payload of a BASE descriptor: either the `(basename, bound)` pair shape
or the bare-string shape. -/
inductive BaseRest where
  | pair (basename : String) (bound : Int)
  | bare (basename : String)
deriving DecidableEq, Repr

/-- Inner descriptor of an ARRAY/SEQUENCE (itself BASE or NAME). -/
inductive Idesc where
  | base (rest : BaseRest)
  | name (s : String)
deriving DecidableEq, Repr

/-- A field descriptor (`FieldDesc` in the source). -/
inductive Fielddesc where
  | base (rest : BaseRest)
  | name (s : String)
  | array (inner : Idesc) (length : Int)
  | sequence (inner : Idesc) (bound : Int)
deriving DecidableEq, Repr

/-- A constant definition `(name, basetype, value)`.  The value is kept as
its Python `str()` rendering, which is all `gendefhash` uses of it. -/
structure Constdef where
  name : String
  typ : String
  value : String
deriving DecidableEq, Repr

/-- One message: ordered constants and ordered fields. -/
abbrev Msgdef := List Constdef × List (String × Fielddesc)

/-- The type store / parsed type dictionary: an insertion-ordered map from
fully-qualified type name to message definition (`FIELDDEFS`). -/
abbrev Typesdict := List (String × Msgdef)

/-- Exceptions raised by the Python code, as an error channel.
`typesys` is the subsystem's own `TypesysError`; the others model
built-in Python exceptions.  `noFuel` marks fuel exhaustion of the
embedding (the Python recursion would not have terminated). -/
inductive PyErr where
  | typesys (msg : String)
  | keyError (key : String)
  | assertionError
  | valueError
  | indexError
  | noFuel
deriving DecidableEq, Repr

/-- Is an error the subsystem's own `TypesysError`? -/
def PyErr.isTypesys : PyErr → Bool
  | .typesys _ => true
  | _ => false

deriving instance DecidableEq for Except

/-! ### `msg.py`: name normalization -/

/-- `normalize_msgtype` (msg.py:155): insert a `msg` segment when the
parent segment is not already `msg`. -/
def normalizeMsgtypeL (l : List Char) : List Char :=
  let p := pathParts l
  if pName (pParent p) = msgSeg then pathStr p
  else pathStr (pParent p ++ [msgSeg] ++ pathParts (pName p))

/-- String-level `normalize_msgtype`. -/
def normalize_msgtype (s : String) : String :=
  ⟨normalizeMsgtypeL s.data⟩

/-- `denormalize_msgtype` (msg.py:210): strip the `/msg/` segment;
the source `assert '/msg/' in typename` is modelled as an error. -/
def denormalize_msgtype (s : String) : Except PyErr String :=
  if hasSub "/msg/".data s.data then
    .ok ⟨pathStr (pParent (pParent (pathParts s.data)) ++ pathParts (pName (pathParts s.data)))⟩
  else .error .assertionError

/-- The bare-name resolution chain of `normalize_fieldtype`
(msg.py:196-205): leaf-name dictionary first, then `Header`, then the
owner's package, then `msg`-segment insertion. -/
def resolveL (typename n : List Char) (names : List (List Char)) : List Char :=
  let dct := dictOf (names.map fun nm => (leafOf nm, nm))
  match dictGet dct n with
  | some v => v
  | none =>
    if n = "Header".data then "std_msgs/msg/Header".data
    else if ¬n.contains '/' then pathStr (pParent (pathParts typename) ++ pathParts n)
    else if ¬hasSub "/msg/".data n then
      pathStr (pParent (pathParts n) ++ [msgSeg] ++ pathParts (pName (pathParts n)))
    else n

/-- `normalize_fieldtype` (msg.py:171): BASE fields (outer or inner) are
returned unchanged; a NAME, or the NAME inside an ARRAY/SEQUENCE, is
resolved by `resolveL`. -/
def normalize_fieldtype (typename : String) (field : Fielddesc) (names : List String) :
    Fielddesc :=
  let res := fun (n : String) => (⟨resolveL typename.data n.data (names.map (·.data))⟩ : String)
  match field with
  | .base r => .base r
  | .name n => .name (res n)
  | .array (.base r) k => .array (.base r) k
  | .sequence (.base r) k => .sequence (.base r) k
  | .array (.name n) k => .array (.name (res n)) k
  | .sequence (.name n) k => .sequence (.name (res n)) k

/-! ### `base.py`: field-name normalization -/

/-- The reserved words of Python 3 (`keyword.kwlist`), the host language of
the implementation; used by `keyword.iskeyword`. -/
def pythonKeywords : List String :=
  ["False", "None", "True", "and", "as", "assert", "async", "await", "break",
   "class", "continue", "def", "del", "elif", "else", "except", "finally",
   "for", "from", "global", "if", "import", "in", "is", "lambda", "nonlocal",
   "not", "or", "pass", "raise", "return", "try", "while", "with", "yield"]

/-- `keyword.iskeyword`. -/
def iskeyword (s : String) : Bool := pythonKeywords.contains s

/-- `normalize_fieldname` (base.py:52): append `_` to Python keywords. -/
def normalize_fieldname (name : String) : String :=
  if iskeyword name then name ++ "_" else name

/-- Python's `name.rstrip('_')`: drop every trailing underscore. -/
def rstripUnderscore (s : String) : String :=
  ⟨(s.data.reverse.dropWhile fun c => c = '_').reverse⟩

/-! ### `msg.py`: the parse-tree visitor

The PEG engine itself (`peg.py`) is not part of the sources; the visitor
methods of `VisitorMSG` are, and they are embedded here over parse-tree
values.  Per the grammar (spec §6), a `simple_type_spec` is either a
bounded string `string <= N` or a scoped name (identifier segments joined
by `/`), an `array_size` holds an optional integer literal, and a message
body is a list of constant and field declarations.
-/

/-- Parse-tree value of a `simple_type_spec`: bounded string or scoped name
(already joined to one string by `visit_scoped_name`). -/
inductive SimpleSpec where
  | bounded (n : Int)
  | scoped (s : String)
deriving DecidableEq, Repr

/-- `VisitorMSG.BASETYPES` (msg.py:236). -/
def BASETYPES : List String :=
  ["bool", "octet", "int8", "int16", "int32", "int64",
   "uint8", "uint16", "uint32", "uint64", "float32", "float64", "string"]

/-- `visit_simple_type_spec` (msg.py:318): bounded strings become
`BASE ('string', N)`; aliases `time`/`duration`/`byte`/`char` are
rewritten; base types become `BASE (name, 0)` pairs, others `NAME`. -/
def visit_simple_type_spec : SimpleSpec → Idesc
  | .bounded n => .base (.pair "string" n)
  | .scoped s =>
    let dct : List (String × String) :=
      [("time", "builtin_interfaces/msg/Time"),
       ("duration", "builtin_interfaces/msg/Duration"),
       ("byte", "octet"), ("char", "uint8")]
    let typespec := (dictGet dct s).getD s
    if BASETYPES.contains typespec then .base (.pair typespec 0)
    else .name typespec

/-- `visit_array_type_spec` (msg.py:302): a non-empty bracket yields an
ARRAY with the literal's value (`if length := children[1][1]` — tuple
truthiness, so an explicit `[0]` still takes the ARRAY branch); an empty
bracket yields an unbounded SEQUENCE. -/
def visit_array_type_spec (inner : Idesc) (length : List Int) : Fielddesc :=
  match length with
  | n :: _ => .array inner n
  | [] => .sequence inner 0

/-- `visit_bounded_array_type_spec` (msg.py:311). -/
def visit_bounded_array_type_spec (inner : Idesc) (bound : Int) : Fielddesc :=
  .sequence inner bound

/-- Lift an `Idesc` to a plain (non-array) `Fielddesc`, as when a
`simple_type_spec` is used directly as a field type. -/
def plainField : Idesc → Fielddesc
  | .base r => .base r
  | .name s => .name s

/-- A lowered body item of one `msgdef`: constant or field declaration
(output of `visit_const_dcl` / `visit_field_dcl`, both of which normalize
the identifier with `normalize_fieldname`). -/
inductive Msgitem where
  | const (name typ value : String)
  | field (name : String) (desc : Fielddesc)
deriving DecidableEq, Repr

/-- `visit_field_dcl` (msg.py:295). -/
def visit_field_dcl (name : String) (desc : Fielddesc) : Msgitem :=
  .field (normalize_fieldname name) desc

/-- `visit_specification` (msg.py:252), applied to the per-`msgdef` outputs
of `visit_msgdef` — pairs of the raw scoped name (normalized here exactly
as `visit_msgdef` does) and the body items.  Builds the batch dictionary,
splits constants from fields and resolves every field type against the
batch names. -/
def visitSpecification (batch : List (String × List Msgitem)) : Typesdict :=
  let typedict : List (String × List Msgitem) :=
    dictOf (batch.map fun p => (normalize_msgtype p.1, p.2))
  let names := typedict.map (·.1)
  typedict.map fun p =>
    (p.1,
     (p.2.filterMap fun i =>
        match i with
        | .const n t v => some ⟨n, t, v⟩
        | .field _ _ => none,
      p.2.filterMap fun i =>
        match i with
        | .const _ _ _ => none
        | .field n d => some (n, normalize_fieldtype p.1 d names)))

/-- The regular expression `^[^/]+/msg/[^/]+$` of spec §8: exactly three
slash-separated parts, outer parts non-empty, the middle literally `msg`. -/
def matchesFqn (s : String) : Bool :=
  match splitSlash s.data with
  | [a, b, c] => a ≠ [] && b = msgSeg && c ≠ []
  | _ => false

/-! ### Bytes, UTF-8 and hex

Models of `str.encode()` and `hexdigest()`.  Bytes are natural numbers
below 256.
-/

/-- UTF-8 encoding of one code point. -/
def utf8Char (c : Char) : List Nat :=
  let n := c.toNat
  if n < 128 then [n]
  else if n < 2048 then [192 + n / 64, 128 + n % 64]
  else if n < 65536 then [224 + n / 4096, 128 + n / 64 % 64, 128 + n % 64]
  else [240 + n / 262144, 128 + n / 4096 % 64, 128 + n / 64 % 64, 128 + n % 64]

/-- UTF-8 encoding of a string (`s.encode()`). -/
def utf8Encode (s : String) : List Nat :=
  (s.data.map utf8Char).flatten

/-- One lowercase hex digit. -/
def hexDigit (n : Nat) : Char :=
  ("0123456789abcdef".data.getD n '?')

/-- Two lowercase hex digits of one byte. -/
def byteHex (b : Nat) : List Char :=
  [hexDigit (b / 16 % 16), hexDigit (b % 16)]

/-- Lowercase hex string of a byte list (`digest().hex()`). -/
def hexDigest (bytes : List Nat) : String :=
  ⟨(bytes.map byteHex).flatten⟩

/-! ### SHA-256 (FIPS 180-4), over byte lists -/

/-- Truncate to 32 bits. -/
def m32 (n : Nat) : Nat := n % 4294967296

/-- 32-bit right rotation. -/
def rotr32 (x n : Nat) : Nat := m32 ((x >>> n) ||| (x <<< (32 - n)))

/-- SHA-256 round constants. -/
def shaK : List Nat :=
  [1116352408, 1899447441, 3049323471, 3921009573, 961987163, 1508970993,
   2453635748, 2870763221, 3624381080, 310598401, 607225278, 1426881987,
   1925078388, 2162078206, 2614888103, 3248222580, 3835390401, 4022224774,
   264347078, 604807628, 770255983, 1249150122, 1555081692, 1996064986,
   2554220882, 2821834349, 2952996808, 3210313671, 3336571891, 3584528711,
   113926993, 338241895, 666307205, 773529912, 1294757372, 1396182291,
   1695183700, 1986661051, 2177026350, 2456956037, 2730485921, 2820302411,
   3259730800, 3345764771, 3516065817, 3600352804, 4094571909, 275423344,
   430227734, 506948616, 659060556, 883997877, 958139571, 1322822218,
   1537002063, 1747873779, 1955562222, 2024104815, 2227730452, 2361852424,
   2428436474, 2756734187, 3204031479, 3329325298]

/-- SHA-256 initial hash value. -/
def shaH0 : List Nat :=
  [1779033703, 3144134277, 1013904242, 2773480762, 1359893119, 2600822924,
   528734635, 1541459225]

/-- Split a list into chunks of `n` (the last chunk may be short);
structural recursion on a step counter bounded by the list length. -/
def chunksAux {α : Type} (n : Nat) : Nat → List α → List (List α)
  | _, [] => []
  | 0, l => [l]
  | steps + 1, l =>
    if l.length ≤ n then [l]
    else l.take n :: chunksAux n steps (l.drop n)

/-- Split a list into chunks of `n` (the last chunk may be short). -/
def chunks {α : Type} (n : Nat) (l : List α) : List (List α) :=
  chunksAux n l.length l

/-- Big-endian bytes of a value, `n` bytes wide. -/
def beBytes (n : Nat) (v : Nat) : List Nat :=
  (List.range n).map fun i => v >>> (8 * (n - 1 - i)) % 256

/-- Big-endian 32-bit word from (up to) four bytes. -/
def beWord (l : List Nat) : Nat :=
  l.foldl (fun a b => a * 256 + b) 0

/-- SHA-256 / MD5 padding of the message (the two differ only in the byte
order of the appended 64-bit bit length). -/
def padMessage (bigEndianLen : Bool) (msg : List Nat) : List Nat :=
  let bitlen := 8 * msg.length
  let padlen := (55 + 64 - msg.length % 64) % 64 + 1
  let lenBytes := if bigEndianLen then beBytes 8 bitlen else (beBytes 8 bitlen).reverse
  msg ++ 128 :: List.replicate (padlen - 1) 0 ++ lenBytes

/-- SHA-256 message-schedule extension from 16 to 64 words. -/
def shaExtend : Nat → List Nat → List Nat
  | 0, w => w
  | n + 1, w =>
    let i := w.length
    let w15 := w.getD (i - 15) 0
    let w2 := w.getD (i - 2) 0
    let s0 := (rotr32 w15 7) ^^^ (rotr32 w15 18) ^^^ (w15 >>> 3)
    let s1 := (rotr32 w2 17) ^^^ (rotr32 w2 19) ^^^ (w2 >>> 10)
    shaExtend n (w ++ [m32 (w.getD (i - 16) 0 + s0 + w.getD (i - 7) 0 + s1)])

/-- One SHA-256 compression round. -/
def shaRound (st : List Nat) (kw : Nat × Nat) : List Nat :=
  match st with
  | [a, b, c, d, e, f, g, h] =>
    let s1 := (rotr32 e 6) ^^^ (rotr32 e 11) ^^^ (rotr32 e 25)
    let ch := (e &&& f) ^^^ ((4294967295 - e) &&& g)
    let t1 := m32 (h + s1 + ch + kw.1 + kw.2)
    let s0 := (rotr32 a 2) ^^^ (rotr32 a 13) ^^^ (rotr32 a 22)
    let mj := (a &&& b) ^^^ (a &&& c) ^^^ (b &&& c)
    let t2 := m32 (s0 + mj)
    [m32 (t1 + t2), a, b, c, m32 (d + t1), e, f, g]
  | st => st

/-- SHA-256 compression of one 64-byte block into the running hash. -/
def shaBlock (h : List Nat) (block : List Nat) : List Nat :=
  let w := shaExtend 48 ((chunks 4 block).map beWord)
  let st := (shaK.zip w).foldl shaRound h
  (h.zip st).map fun p => m32 (p.1 + p.2)

/-- SHA-256 digest (32 bytes) of a byte list. -/
def sha256 (msg : List Nat) : List Nat :=
  ((chunks 64 (padMessage true msg)).foldl shaBlock shaH0).map (beBytes 4) |>.flatten

/-! ### MD5 (RFC 1321), over byte lists -/

/-- 32-bit left rotation. -/
def rotl32 (x n : Nat) : Nat := m32 ((x <<< n) ||| (x >>> (32 - n)))

/-- MD5 sine-derived constants. -/
def md5T : List Nat :=
  [3614090360, 3905402710, 606105819, 3250441966, 4118548399, 1200080426,
   2821735955, 4249261313, 1770035416, 2336552879, 4294925233, 2304563134,
   1804603682, 4254626195, 2792965006, 1236535329, 4129170786, 3225465664,
   643717713, 3921069994, 3593408605, 38016083, 3634488961, 3889429448,
   568446438, 3275163606, 4107603335, 1163531501, 2850285829, 4243563512,
   1735328473, 2368359562, 4294588738, 2272392833, 1839030562, 4259657740,
   2763975236, 1272893353, 4139469664, 3200236656, 681279174, 3936430074,
   3572445317, 76029189, 3654602809, 3873151461, 530742520, 3299628645,
   4096336452, 1126891415, 2878612391, 4237533241, 1700485571, 2399980690,
   4293915773, 2240044497, 1873313359, 4264355552, 2734768916, 1309151649,
   4149444226, 3174756917, 718787259, 3951481745]

/-- MD5 per-operation left-rotation amounts. -/
def md5S : List Nat :=
  [7, 12, 17, 22, 7, 12, 17, 22, 7, 12, 17, 22, 7, 12, 17, 22,
   5, 9, 14, 20, 5, 9, 14, 20, 5, 9, 14, 20, 5, 9, 14, 20,
   4, 11, 16, 23, 4, 11, 16, 23, 4, 11, 16, 23, 4, 11, 16, 23,
   6, 10, 15, 21, 6, 10, 15, 21, 6, 10, 15, 21, 6, 10, 15, 21]

/-- Little-endian 32-bit word from four bytes. -/
def leWord (l : List Nat) : Nat :=
  l.reverse.foldl (fun a b => a * 256 + b) 0

/-- One MD5 operation (`i` is the operation index, 0-63). -/
def md5Op (words : List Nat) (st : List Nat) (i : Nat) : List Nat :=
  match st with
  | [a, b, c, d] =>
    let nb := 4294967295
    let f :=
      if i < 16 then (b &&& c) ||| ((nb - b) &&& d)
      else if i < 32 then (d &&& b) ||| ((nb - d) &&& c)
      else if i < 48 then b ^^^ c ^^^ d
      else c ^^^ (b ||| (nb - d))
    let g :=
      if i < 16 then i
      else if i < 32 then (5 * i + 1) % 16
      else if i < 48 then (3 * i + 5) % 16
      else 7 * i % 16
    let sum := m32 (a + f + (md5T.getD i 0) + words.getD g 0)
    [d, m32 (b + rotl32 sum (md5S.getD i 0)), b, c]
  | st => st

/-- MD5 compression of one 64-byte block. -/
def md5Block (h : List Nat) (block : List Nat) : List Nat :=
  let words := (chunks 4 block).map leWord
  let st := (List.range 64).foldl (md5Op words) h
  (h.zip st).map fun p => m32 (p.1 + p.2)

/-- MD5 initial state. -/
def md5H0 : List Nat := [1732584193, 4023233417, 2562383102, 271733878]

/-- MD5 digest (16 bytes) of a byte list. -/
def md5 (msg : List Nat) : List Nat :=
  ((chunks 64 (padMessage false msg)).foldl md5Block md5H0).map
    (fun w => (beBytes 4 w).reverse) |>.flatten

/-- `md5(text.encode()).hexdigest()`. -/
def md5Hex (s : String) : String := hexDigest (md5 (utf8Encode s))

/-! ### JSON model and `json.dumps`

The objects `hash_rihs01` passes to `json.dumps` have one fixed shape:
a two-key payload dict of struct dicts, each struct a two-key dict with a
list of two-key field dicts whose `type` member is a four-key dict of
scalars.  They are modelled by records mirroring those dicts key for key
(in insertion order), and `json.dumps` with default arguments is modelled
shape by shape: keys in insertion order with the default separators
`', '` and `': '` — i.e. with a space after every comma and colon. -/

/-- The `type` member of one field dict (base.py:168-173). -/
structure FieldTypeJson where
  type_id : Int
  capacity : Int
  string_capacity : Int
  nested_type_name : String
deriving DecidableEq, Repr

/-- One field dict `{'name': …, 'type': …}` (base.py:166). -/
structure FieldJson where
  name : String
  typ : FieldTypeJson
deriving DecidableEq, Repr

/-- One struct dict `{'type_name': …, 'fields': […]}` (base.py:180). -/
structure StructJson where
  type_name : String
  fields : List FieldJson
deriving DecidableEq, Repr

/-- The payload dict of `hash_rihs01` (base.py:192). -/
structure PayloadJson where
  type_description : StructJson
  referenced_type_descriptions : List StructJson
deriving DecidableEq, Repr

/-- JSON string escaping (`\` and `"`; other characters of this
subsystem's identifier-like strings need no escaping). -/
def jsonEscape (s : String) : String :=
  ⟨(s.data.map fun c => if c = '\\' ∨ c = '"' then ['\\', c] else [c]).flatten⟩

/-- A JSON string literal. -/
def jsonQuote (s : String) : String := "\"" ++ jsonEscape s ++ "\""

/-- Comma-space separated list body, as `json.dumps` renders arrays and
object members with its default item separator `', '`. -/
def joinComma (l : List String) : String :=
  ⟨joinWith2 ", ".data (l.map (·.data))⟩

/-- A JSON object from rendered key/value pairs: keys in order, default
key separator `': '`. -/
def objStr (pairs : List (String × String)) : String :=
  "\x7b" ++ joinComma (pairs.map fun p => jsonQuote p.1 ++ ": " ++ p.2) ++ "\x7d"

/-- A JSON array from rendered elements. -/
def arrStr (elems : List String) : String :=
  "[" ++ joinComma elems ++ "]"

/-- `json.dumps` of one field-type dict. -/
def dumpsFieldType (t : FieldTypeJson) : String :=
  objStr [("type_id", toString t.type_id), ("capacity", toString t.capacity),
          ("string_capacity", toString t.string_capacity),
          ("nested_type_name", jsonQuote t.nested_type_name)]

/-- `json.dumps` of one field dict. -/
def dumpsField (f : FieldJson) : String :=
  objStr [("name", jsonQuote f.name), ("type", dumpsFieldType f.typ)]

/-- `json.dumps` of one struct dict. -/
def dumpsStruct (s : StructJson) : String :=
  objStr [("type_name", jsonQuote s.type_name),
          ("fields", arrStr (s.fields.map dumpsField))]

/-- `json.dumps` of the whole payload dict. -/
def dumpsPayload (p : PayloadJson) : String :=
  objStr [("type_description", dumpsStruct p.type_description),
          ("referenced_type_descriptions",
           arrStr (p.referenced_type_descriptions.map dumpsStruct))]

/-! ### `base.py`: the structural RIHS01 hash -/

/-- `TIDMAP` (base.py:94). -/
def TIDMAP : List (String × Int) :=
  [("int8", 2), ("uint8", 3), ("int16", 4), ("uint16", 5), ("int32", 6),
   ("uint32", 7), ("int64", 8), ("uint64", 9), ("float32", 10),
   ("float64", 11), ("float128", 12), ("char", 13), ("bool", 15),
   ("octet", 16), ("string", 17), ("bounded_string", 21)]

/-- The struct cache of `hash_rihs01`, in insertion order. -/
abbrev Cache := List (String × StructJson)

/-- The inner-descriptor payload `(typ, rest)` that `get_field` unpacks
after peeling an ARRAY/SEQUENCE wrapper. -/
def idescOf : Fielddesc → Idesc
  | .base r => .base r
  | .name s => .name s
  | .array i _ => i
  | .sequence i _ => i

/-- `hash_rihs01.get_field` (base.py:131), with the recursive
`get_struct` call abstracted as `recur`.  Mirrors the source exactly:
`desc[0] == 3` (ARRAY) always takes increment 48 with the length as
capacity; `desc[0] == 4` (SEQUENCE) takes 96 with the bound as capacity
when the bound is non-zero (Python truthiness) and 144 otherwise; a NAME
gets base id 1 and recurses into its subtype; a `(basename, bound)` tuple
payload takes `TIDMAP['bounded_string']` when the bound is non-zero and
`TIDMAP['string']` otherwise; only a bare-string payload is looked up in
`TIDMAP` (a missing key is a `KeyError`). -/
def getField (recur : String → Cache → Except PyErr (StructJson × Cache))
    (name : String) (desc : Fielddesc) (cache : Cache) :
    Except PyErr (FieldJson × Cache) :=
  let increment : Int :=
    match desc with
    | .array _ _ => 48
    | .sequence _ bound => if bound ≠ 0 then 96 else 144
    | _ => 0
  let capacity : Int :=
    match desc with
    | .array _ len => len
    | .sequence _ bound => if bound ≠ 0 then bound else 0
    | _ => 0
  let mk := fun (tid stringCapacity : Int) (subtype : String) (c : Cache) =>
    (Except.ok (⟨name, ⟨tid, capacity, stringCapacity, subtype⟩⟩, c) :
      Except PyErr (FieldJson × Cache))
  match idescOf desc with
  | .name subtype =>
    match recur subtype cache with
    | .error e => .error e
    | .ok (_, cache') => mk (increment + 1) 0 subtype cache'
  | .base (.pair _ bound) =>
    if bound ≠ 0 then mk (increment + 21) bound "" cache
    else mk (increment + 17) 0 "" cache
  | .base (.bare basename) =>
    match dictGet TIDMAP basename with
    | some tid => mk (increment + tid) 0 "" cache
    | none => .error (.keyError basename)

/-- The synthetic member inserted into field-less structs
(base.py:186): note its bare-string BASE payload `(1, 'uint8')`. -/
def sentinelField : String × Fielddesc :=
  ("structure_needs_at_least_one_member", .base (.bare "uint8"))

/-- Sequential `get_field` over a field list, threading the cache; the
recursive `get_struct` is passed in as `recur`. -/
def getFields (recur : String → Cache → Except PyErr (StructJson × Cache)) :
    List (String × Fielddesc) → Cache → Except PyErr (List FieldJson × Cache)
  | [], cache => .ok ([], cache)
  | f :: fs, cache =>
    match getField recur f.1 f.2 cache with
    | .error e => .error e
    | .ok (j, cache') =>
      match getFields recur fs cache' with
      | .error e => .error e
      | .ok (js, cache'') => .ok (j :: js, cache'')

/-- `hash_rihs01.get_struct` (base.py:178): memoized struct construction.
A type absent from `FIELDDEFS` raises `KeyError` (there is no unknown-type
check in `hash_rihs01`).  The struct is inserted into the cache only after
all its fields — including recursive references — have been built, exactly
as the source assigns `struct_cache[typ]` after evaluating the dict
literal. -/
def getStruct (ts : Typesdict) : Nat → String → Cache → Except PyErr (StructJson × Cache)
  | 0, _, _ => .error .noFuel
  | fuel + 1, typ, cache =>
    match dictGet cache typ with
    | some s => .ok (s, cache)
    | none =>
      match dictGet ts typ with
      | none => .error (.keyError typ)
      | some (_, flds) =>
        let flds' := if flds.isEmpty then [sentinelField] else flds
        match getFields (getStruct ts fuel) flds' cache with
        | .error e => .error e
        | .ok (fieldJsons, cache') =>
          let struct : StructJson := ⟨typ, fieldJsons⟩
          .ok (struct, cache' ++ [(typ, struct)])

/-- Insertion sort of cache entries by type name, modelling Python's
`sorted(struct_cache.items())` (keys are unique, so only the key
comparison matters). -/
def sortByKey (l : Cache) : Cache :=
  l.insertionSort fun a b => a.1 ≤ b.1

instance : IsTotal (String × StructJson) fun a b => a.1 ≤ b.1 :=
  ⟨fun a b => le_total a.1 b.1⟩

instance : IsTrans (String × StructJson) fun a b => a.1 ≤ b.1 :=
  ⟨fun _ _ _ => le_trans⟩

/-- The payload dict of `hash_rihs01` (base.py:192): the root type's
struct under `type_description`, and every other cached struct, sorted by
type name, under `referenced_type_descriptions`. -/
def rihs01Payload (fuel : Nat) (typ : String) (ts : Typesdict) :
    Except PyErr PayloadJson :=
  match getStruct ts fuel typ [] with
  | .error e => .error e
  | .ok (root, cache) =>
    .ok ⟨root, ((sortByKey cache).filter fun p => p.1 ≠ typ).map (·.2)⟩

/-- `hash_rihs01` (base.py:119): SHA-256 of the canonical JSON of the
payload, with the `RIHS01_` prefix. -/
def hash_rihs01 (fuel : Nat) (typ : String) (ts : Typesdict) : Except PyErr String :=
  match getStruct ts fuel typ [] with
  | .error e => .error e
  | .ok (root, cache) =>
    let dct : PayloadJson :=
      ⟨root, ((sortByKey cache).filter fun p => p.1 ≠ typ).map (·.2)⟩
    .ok ("RIHS01_" ++ hexDigest (sha256 (utf8Encode (dumpsPayload dct))))

/-! ### `msg.py`: the legacy MD5 definition hash -/

/-- Generic separator interleaving (for `'\n'.join`). -/
def joinWith (sep : Char) : List (List Char) → List Char
  | [] => []
  | [s] => s
  | s :: ss => s ++ sep :: joinWith sep ss

/-- `'\n'.join` on strings. -/
def joinNL (l : List String) : String :=
  ⟨joinWith '\n' (l.map (·.data))⟩

/-- The mutable `subdefs` map of `gendefhash`: fully-qualified name to
`(definition text, md5 hex)`. -/
abbrev Subdefs := List (String × (String × String))

/-- The ROS1 short-name map built at the top of `gendefhash`
(msg.py:409). -/
def typemapFor (rosVersion : Nat) : List (String × String) :=
  if rosVersion = 1 then
    [("builtin_interfaces/msg/Time", "time"),
     ("builtin_interfaces/msg/Duration", "duration")]
  else []

/-- The emitted base-type name of a `(basename, bound)` BASE payload:
`octet` prints as `byte`, a bounded string as `string<=N` (msg.py:430-435
and 457-461). -/
def baseArgname (basename : String) (bound : Int) : String :=
  if basename = "octet" then "byte"
  else if basename = "string" then
    if bound ≠ 0 then "string<=" ++ toString bound else "string"
  else basename

/-- The recursion step shared by the NAME cases of `gendefhash`
(msg.py:446-448 and 470-472): a subtype not yet in `subdefs` first gets the
empty sentinel entry, is then generated recursively (the recursive call
sees and further mutates `subdefs`), and the result overwrites the
sentinel. -/
def gdhRecurse (recur : String → Subdefs → Except PyErr ((String × String) × Subdefs))
    (subname : String) (sd : Subdefs) : Except PyErr Subdefs :=
  if dictHas sd subname then .ok sd
  else
    match recur subname (dictInsert sd subname ("", "")) with
    | .error e => .error e
    | .ok (res, sd2) => .ok (dictInsert sd2 subname res)

/-- One non-sentinel field of `gendefhash` (msg.py:426-474), with the
recursive call abstracted as `recur`.  Returns the definition-text line,
the hash-text line and the updated `subdefs`. -/
def gdhField (recur : String → Subdefs → Except PyErr ((String × String) × Subdefs))
    (typemap : List (String × String)) (name : String) (desc : Fielddesc)
    (sd : Subdefs) : Except PyErr (String × String × Subdefs) :=
  let sn := rstripUnderscore name
  match desc with
  | .base (.pair basename bound) =>
    let argname := baseArgname basename bound
    .ok (argname ++ " " ++ sn, argname ++ " " ++ sn, sd)
  | .base (.bare _) =>
    -- `argname, arglimit = desc[1]` unpacks a bare basename string into
    -- its characters and fails unless it has length two; no basename of
    -- this subsystem has length two.
    .error .valueError
  | .name subname =>
    (match dictGet typemap subname with
     | some short => .ok (short ++ " " ++ sn, short ++ " " ++ sn, sd)
     | none =>
       match gdhRecurse recur subname sd with
       | .error e => .error e
       | .ok sd' =>
         match denormalize_msgtype subname with
         | .error e => .error e
         | .ok dn =>
           let h := ((dictGet sd' subname).getD ("", "")).2
           .ok (dn ++ " " ++ sn, h ++ " " ++ sn, sd'))
  | .array inner num => gdhArrField recur typemap sn true inner num sd
  | .sequence inner num => gdhArrField recur typemap sn false inner num sd
where
  /-- The ARRAY/SEQUENCE arm (msg.py:451-474). -/
  gdhArrField (recur : String → Subdefs → Except PyErr ((String × String) × Subdefs))
      (typemap : List (String × String)) (sn : String) (isArray : Bool)
      (inner : Idesc) (num : Int) (sd : Subdefs) :
      Except PyErr (String × String × Subdefs) :=
    let count := if num = 0 then "" else if isArray then toString num else "<=" ++ toString num
    match inner with
    | .base (.pair basename bound) =>
      let nm := baseArgname basename bound
      let line := nm ++ "[" ++ count ++ "] " ++ sn
      .ok (line, line, sd)
    | .base (.bare s) =>
      -- Python indexes `isubname[0]` into the bare string: its first
      -- character (an `IndexError` when empty).
      if s = "" then .error .indexError
      else
        let line := (⟨s.data.take 1⟩ : String) ++ "[" ++ count ++ "] " ++ sn
        .ok (line, line, sd)
    | .name subname =>
      match dictGet typemap subname with
      | some short =>
        let line := short ++ "[" ++ count ++ "] " ++ sn
        .ok (line, line, sd)
      | none =>
        match gdhRecurse recur subname sd with
        | .error e => .error e
        | .ok sd' =>
          match denormalize_msgtype subname with
          | .error e => .error e
          | .ok dn =>
            let h := ((dictGet sd' subname).getD ("", "")).2
            -- note: the hash-text line of an array of a named type
            -- carries no bracket suffix (msg.py:474)
            .ok (dn ++ "[" ++ count ++ "] " ++ sn, h ++ " " ++ sn, sd')

/-- The field loop of `gendefhash`: fields named
`structure_needs_at_least_one_member` are skipped (msg.py:427). -/
def gdhFields (recur : String → Subdefs → Except PyErr ((String × String) × Subdefs))
    (typemap : List (String × String)) :
    List (String × Fielddesc) → Subdefs → Except PyErr (List String × List String × Subdefs)
  | [], sd => .ok ([], [], sd)
  | (name, desc) :: fs, sd =>
    if name = "structure_needs_at_least_one_member" then gdhFields recur typemap fs sd
    else
      match gdhField recur typemap name desc sd with
      | .error e => .error e
      | .ok (dl, hl, sd') =>
        match gdhFields recur typemap fs sd' with
        | .error e => .error e
        | .ok (dls, hls, sd'') => .ok (dl :: dls, hl :: hls, sd'')

/-- `gendefhash` (msg.py:386): canonical definition text and MD5 hash.
A type missing from the store raises `TypesysError` with the repr of the
name (msg.py:417-419); constants come first; under ROS1 the synthetic
`uint32 seq` line is prepended for `std_msgs/msg/Header`; the definition
text gets a final empty line; the MD5 is taken over the newline-joined
hash lines. -/
def gendefhash (ts : Typesdict) (rosVersion : Nat) :
    Nat → String → Subdefs → Except PyErr ((String × String) × Subdefs)
  | 0, _, _ => .error .noFuel
  | fuel + 1, typename, subdefs =>
    let typemap := typemapFor rosVersion
    match dictGet ts typename with
    | none => .error (.typesys ("Type '" ++ typename ++ "' is unknown."))
    | some (consts, fields) =>
      let constLines := consts.map fun c =>
        c.typ ++ " " ++ rstripUnderscore c.name ++ "=" ++ c.value
      match gdhFields (gendefhash ts rosVersion fuel) typemap fields subdefs with
      | .error e => .error e
      | .ok (dls, hls, sd') =>
        let deftext := constLines ++ dls
        let hashtext := constLines ++ hls
        let deftext :=
          if rosVersion = 1 ∧ typename = "std_msgs/msg/Header" then
            "uint32 seq" :: deftext
          else deftext
        let hashtext :=
          if rosVersion = 1 ∧ typename = "std_msgs/msg/Header" then
            "uint32 seq" :: hashtext
          else hashtext
        .ok ((joinNL (deftext ++ [""]), md5Hex (joinNL hashtext)), sd')

/-- The 80-`=` separator line of concatenated definitions. -/
def sepLine : String := ⟨List.replicate 80 '='⟩

/-- `generate_msgdef` (msg.py:484): the root definition followed by one
separator-headed block per entry of the accumulated `subdefs`, in
insertion order. -/
def generate_msgdef (fuel : Nat) (typename : String) (ts : Typesdict)
    (rosVersion : Nat) : Except PyErr (String × String) :=
  match gendefhash ts rosVersion fuel typename [] with
  | .error e => .error e
  | .ok ((msgdef, md5sum), subdefs) =>
    match subdefs.foldlM
        (fun acc p =>
          (denormalize_msgtype p.1).map fun dn =>
            acc ++ sepLine ++ "\nMSG: " ++ dn ++ "\n" ++ p.2.1)
        msgdef with
    | .error e => .error e
    | .ok msgdef' => .ok (msgdef', md5sum)

/-! ### Spec-side definitions

Definitions in this section follow the wording of the specification (and
of the claims derived from it), to be compared against the embedded code
above; they are not translations of the source.
-/

/-- A valid name segment: non-empty, not `.`, free of `/`. -/
def validSeg (s : String) : Bool :=
  s ≠ "" && s ≠ "." && ¬s.data.contains '/'

/-- Validity of one slash-split segment (split segments are slash-free by
construction). -/
def validSegL (l : List Char) : Bool :=
  l ≠ [] && l ≠ ['.']

/-- A valid scoped name per the grammar: every slash-separated segment is
a non-empty identifier-like segment.  Grammar identifiers
(`[a-zA-Z_][a-zA-Z_0-9]*`) are always such segments. -/
def validScoped (s : String) : Bool :=
  (splitSlash s.data).all validSegL

/-- Does `s` literally have the shape `p/msg/n` for the given leaf `n`
(spec §4.3 rule 1: "some `p/msg/n` ∈ S")? -/
def specLeafMatch (s n : String) : Bool :=
  match splitSlash s.data with
  | [p, m, l] => decide (p ≠ []) && decide (m = msgSeg) && decide (l = n.data)
  | _ => false

/-- The resolution rules of spec §4.3, exactly as worded: (1) a bare name
matching a batch FQN's leaf (the batch builds its leaf table in
declaration order, so the latest declaration wins ties), (2) `Header`,
(3) the owner's package, (4) `msg`-segment insertion, (5) unchanged. -/
def specResolve (typename n : String) (S : List String) : String :=
  if ¬n.data.contains '/' ∧ S.any (fun s => specLeafMatch s n) then
    (S.reverse.find? fun s => specLeafMatch s n).getD n
  else if n = "Header" then "std_msgs/msg/Header"
  else if ¬n.data.contains '/' then
    ⟨joinSlash [(splitSlash typename.data).headD [], msgSeg, n.data]⟩
  else if ¬hasSub "/msg/".data n.data then
    ⟨joinSlash ((splitSlash n.data).dropLast ++ [msgSeg, ((splitSlash n.data).getLast?).getD []])⟩
  else n

/-- Spec §4.3 lifted to field descriptors: BASE never rewritten, the NAME
inside ARRAY/SEQUENCE rewritten in place. -/
def specNormalizeFieldtype (typename : String) (field : Fielddesc) (S : List String) :
    Fielddesc :=
  match field with
  | .base r => .base r
  | .name n => .name (specResolve typename n S)
  | .array (.base r) k => .array (.base r) k
  | .sequence (.base r) k => .sequence (.base r) k
  | .array (.name n) k => .array (.name (specResolve typename n S)) k
  | .sequence (.name n) k => .sequence (.name (specResolve typename n S)) k

/-- Are all NAME strings inside a field descriptor valid scoped names (as
every parser-produced name is)? -/
def fieldNamesValid : Fielddesc → Bool
  | .base _ => true
  | .name n => validScoped n
  | .array (.base _) _ => true
  | .sequence (.base _) _ => true
  | .array (.name n) _ => validScoped n
  | .sequence (.name n) _ => validScoped n

/-- Comma separated list body without spaces (spec-side "no extra
whitespace" serialization). -/
def joinCommaC (l : List String) : String :=
  ⟨joinWith ',' (l.map (·.data))⟩

/-- A JSON object with the spec's whitespace-free separators. -/
def objStrC (pairs : List (String × String)) : String :=
  "\x7b" ++ joinCommaC (pairs.map fun p => jsonQuote p.1 ++ ":" ++ p.2) ++ "\x7d"

/-- A JSON array with the spec's whitespace-free separator. -/
def arrStrC (elems : List String) : String :=
  "[" ++ joinCommaC elems ++ "]"

/-- Spec-side serialization ("no extra whitespace") of a field-type dict. -/
def dumpsFieldTypeC (t : FieldTypeJson) : String :=
  objStrC [("type_id", toString t.type_id), ("capacity", toString t.capacity),
           ("string_capacity", toString t.string_capacity),
           ("nested_type_name", jsonQuote t.nested_type_name)]

/-- Spec-side serialization of a field dict. -/
def dumpsFieldC (f : FieldJson) : String :=
  objStrC [("name", jsonQuote f.name), ("type", dumpsFieldTypeC f.typ)]

/-- Spec-side serialization of a struct dict. -/
def dumpsStructC (s : StructJson) : String :=
  objStrC [("type_name", jsonQuote s.type_name),
           ("fields", arrStrC (s.fields.map dumpsFieldC))]

/-- Spec-side serialization of the payload dict, exactly as the claim's
"canonical JSON … no extra whitespace" prescribes. -/
def dumpsPayloadC (p : PayloadJson) : String :=
  objStrC [("type_description", dumpsStructC p.type_description),
           ("referenced_type_descriptions",
            arrStrC (p.referenced_type_descriptions.map dumpsStructC))]

/-- The increment table of the code (ARRAY 48; bounded SEQUENCE 96;
unbounded SEQUENCE 144) — the amended form of claim C1's mapping. -/
def amendedIncrement : Fielddesc → Int
  | .array _ _ => 48
  | .sequence _ bound => if bound ≠ 0 then 96 else 144
  | _ => 0

/-- The base-id actually used by the code: 1 for a nested name; for a
`(basename, bound)` payload always the string ids (21 bounded, 17 plain)
regardless of the basename; `TIDMAP` only for a bare basename. -/
def amendedBaseId (d : Fielddesc) : Option Int :=
  match idescOf d with
  | .name _ => some 1
  | .base (.pair _ bound) => some (if bound ≠ 0 then 21 else 17)
  | .base (.bare s) => dictGet TIDMAP s

/-- The field `type_id`s of the root type of a RIHS01 payload. -/
def payloadRootTypeIds (p : PayloadJson) : List Int :=
  p.type_description.fields.map fun f => f.typ.type_id

/-- Modelled from the spec: the PEG engine (`peg.py`) is not among the
sources.  Per the normative grammar (spec §6) the input
`MSG: pkg/Foo\nint32 x\n` parses to a single `msgdef` whose scoped name
is `pkg/Foo` and whose body is one `field_dcl` with `simple_type_spec`
`int32` and identifier `x`; the (embedded) visitor lowers it as below. -/
def parsedMinimalScalar : List (String × List Msgitem) :=
  [("pkg/Foo",
    [visit_field_dcl "x" (plainField (visit_simple_type_spec (.scoped "int32")))])]

/-- Modelled from the spec: per the grammar (spec §6),
`array_size = '[' integer_literal? ']'` and `decimal_literal` matches
`0`, so the input `MSG: pkg/Foo\nuint8[0] x\n` reaches
`visit_array_type_spec` with the one-element literal tuple `(0,)`. -/
def parsedZeroArray : List (String × List Msgitem) :=
  [("pkg/Foo",
    [visit_field_dcl "x"
      (visit_array_type_spec (visit_simple_type_spec (.scoped "uint8")) [0])])]

/-- Modelled from the spec: per the grammar (spec §6) a `msgdef` name is a
`scoped_name`, which may be a single identifier; the input `MSG: Foo\n`
parses to one `msgdef` named `Foo` with an empty body. -/
def parsedBareName : List (String × List Msgitem) :=
  [("Foo", [])]

/-! ### Helper lemmas: splitting and joining -/

theorem splitSlash_ne_nil (l : List Char) : splitSlash l ≠ [] := by
  induction l with
  | nil => simp [splitSlash]
  | cons c cs ih =>
    simp only [splitSlash]
    split
    · simp
    · cases h : splitSlash cs with
      | nil => simp
      | cons s ss => simp

theorem joinSlash_splitSlash (l : List Char) : joinSlash (splitSlash l) = l := by
  induction l with
  | nil => rfl
  | cons c cs ih =>
    simp only [splitSlash]
    split
    · rename_i hc
      cases h : splitSlash cs with
      | nil => exact absurd h (splitSlash_ne_nil cs)
      | cons s ss =>
        rw [h] at ih
        simp only [joinSlash]
        rw [ih, hc]
        simp
    · rename_i hc
      cases h : splitSlash cs with
      | nil => exact absurd h (splitSlash_ne_nil cs)
      | cons s ss =>
        rw [h] at ih
        cases ss with
        | nil => simp_all [joinSlash]
        | cons t ts =>
          simp only [joinSlash] at ih ⊢
          rw [List.cons_append, ih]

theorem splitSlash_of_not_mem {l : List Char} (h : '/' ∉ l) : splitSlash l = [l] := by
  induction l with
  | nil => rfl
  | cons c cs ih =>
    simp only [List.mem_cons, not_or] at h
    simp only [splitSlash]
    rw [if_neg fun hc => h.1 hc.symm, ih h.2]

theorem splitSlash_append {a : List Char} (b : List Char) (h : '/' ∉ a) :
    splitSlash (a ++ '/' :: b) = a :: splitSlash b := by
  induction a with
  | nil => simp [splitSlash]
  | cons c cs ih =>
    simp only [List.mem_cons, not_or] at h
    simp only [List.cons_append, splitSlash]
    rw [if_neg fun hc => h.1 hc.symm]
    simp only [List.append_eq]
    rw [ih h.2]

theorem mem_splitSlash_no_slash (l : List Char) :
    ∀ seg ∈ splitSlash l, '/' ∉ seg := by
  induction l with
  | nil => simp [splitSlash]
  | cons c cs ih =>
    simp only [splitSlash]
    split
    · intro seg hseg
      rcases List.mem_cons.mp hseg with h | h
      · simp [h]
      · exact ih seg h
    · rename_i hc
      cases h : splitSlash cs with
      | nil => exact absurd h (splitSlash_ne_nil cs)
      | cons s ss =>
        intro seg hseg
        rcases List.mem_cons.mp hseg with h' | h'
        · subst h'
          intro hm
          rcases List.mem_cons.mp hm with h'' | h''
          · exact hc h''.symm
          · exact (ih s (h ▸ List.mem_cons_self s ss)) h''
        · exact ih seg (h ▸ List.mem_cons_of_mem s h')

/-! ### Helper lemmas: newline joining -/

theorem getLast?_append_right {α : Type} (l₁ l₂ : List α) (h : l₂ ≠ []) :
    (l₁ ++ l₂).getLast? = l₂.getLast? := by
  induction l₁ with
  | nil => rfl
  | cons a as ih =>
    rw [List.cons_append]
    cases hq : as ++ l₂ with
    | nil =>
      rcases List.append_eq_nil.mp hq with ⟨_, h2⟩
      exact absurd h2 h
    | cons b bs =>
      rw [hq] at ih
      rw [List.getLast?_cons_cons, ih]

theorem getLast?_joinWith_cons (d : List Char) (rest : List (List Char))
    (h : (joinWith '\n' rest).getLast? = some '\n') :
    (joinWith '\n' (d :: rest)).getLast? = some '\n' := by
  cases rest with
  | nil => simp [joinWith] at h
  | cons r rs =>
    show (d ++ '\n' :: joinWith '\n' (r :: rs)).getLast? = some '\n'
    rw [getLast?_append_right _ _ (by simp)]
    cases hj : joinWith '\n' (r :: rs) with
    | nil =>
      rw [hj] at h
      simp at h
    | cons c cs =>
      rw [hj] at h
      rw [List.getLast?_cons_cons]
      exact h

theorem joinNL_trailing (l : List String) (h : l ≠ []) :
    (joinNL (l ++ [""])).data.getLast? = some '\n' := by
  induction l with
  | nil => exact absurd rfl h
  | cons x xs ih =>
    have hx : (joinNL ((x :: xs) ++ [""])).data =
        joinWith '\n' (x.data :: (xs ++ [""]).map (·.data)) := rfl
    rw [hx]
    cases xs with
    | nil =>
      show (x.data ++ '\n' :: joinWith '\n' [[]]).getLast? = some '\n'
      rw [getLast?_append_right _ _ (by simp)]
      rfl
    | cons y ys =>
      exact getLast?_joinWith_cons x.data _ (ih (by simp))

/-! ### Helper lemmas: the dict model -/

theorem dictGet_nil {K V : Type} [DecidableEq K] (k : K) :
    dictGet ([] : List (K × V)) k = none := rfl

theorem dictGet_cons {K V : Type} [DecidableEq K] (p : K × V) (d : List (K × V)) (k : K) :
    dictGet (p :: d) k = if p.1 = k then some p.2 else dictGet d k := by
  simp only [dictGet, List.find?]
  by_cases h : p.1 = k <;> simp [h]

theorem dictGet_map_overwrite {K V : Type} [DecidableEq K]
    (d : List (K × V)) (k k' : K) (v : V) :
    dictGet (d.map fun p => if p.1 = k then (k, v) else p) k' =
      if k' = k then (if d.any fun p => p.1 = k then some v else none)
      else dictGet d k' := by
  induction d with
  | nil => by_cases h : k' = k <;> simp [dictGet, h]
  | cons p d ih =>
    by_cases hp : p.1 = k
    · by_cases hk : k' = k
      · simp [List.map_cons, if_pos hp, dictGet_cons, hk, List.any_cons, hp]
      · have hkk : ¬k = k' := fun h => hk h.symm
        have hpk : ¬p.1 = k' := hp ▸ hkk
        simp only [List.map_cons, if_pos hp, dictGet_cons, if_neg hkk, if_neg hpk, ih,
          if_neg hk]
    · by_cases hpk : p.1 = k'
      · have hk : ¬k' = k := fun he => hp (he ▸ hpk)
        simp [List.map_cons, if_neg hp, dictGet_cons, hpk, if_neg hk]
      · by_cases hk : k' = k
        · simp only [List.map_cons, if_neg hp, dictGet_cons, if_neg hpk, ih, if_pos hk,
            List.any_cons, decide_eq_true_eq]
          have h0 : decide (p.1 = k) = false := decide_eq_false hp
          simp only [h0, Bool.false_or]
        · simp only [List.map_cons, if_neg hp, dictGet_cons, if_neg hpk, ih, if_neg hk]

theorem dictGet_append_new {K V : Type} [DecidableEq K]
    (d : List (K × V)) (k k' : K) (v : V)
    (h : (d.any fun p => p.1 = k) = false) :
    dictGet (d ++ [(k, v)]) k' =
      if k' = k then some v else dictGet d k' := by
  induction d with
  | nil =>
    by_cases hk : k' = k
    · simp [dictGet_cons, hk]
    · have hkk : ¬k = k' := fun he => hk he.symm
      simp [dictGet_cons, hkk, hk]
  | cons p d ih =>
    simp only [List.any_cons, Bool.or_eq_false_iff, decide_eq_false_iff_not] at h
    rw [List.cons_append, dictGet_cons, dictGet_cons]
    by_cases hpk : p.1 = k'
    · have hk : ¬k' = k := fun he => h.1 (he ▸ hpk)
      simp [hpk, hk]
    · rw [if_neg hpk, if_neg hpk, ih (by simp [h.2])]

theorem dictGet_insert {K V : Type} [DecidableEq K]
    (d : List (K × V)) (k k' : K) (v : V) :
    dictGet (dictInsert d k v) k' = if k' = k then some v else dictGet d k' := by
  unfold dictInsert
  by_cases h : (d.any fun p => p.1 = k) = true
  · rw [if_pos h, dictGet_map_overwrite, h]
    simp
  · rw [if_neg h]
    exact dictGet_append_new d k k' v (Bool.not_eq_true _ ▸ h)

theorem dictOf_append_single {K V : Type} [DecidableEq K]
    (l : List (K × V)) (p : K × V) :
    dictOf (l ++ [p]) = dictInsert (dictOf l) p.1 p.2 := by
  simp [dictOf, List.foldl_append]

theorem dictGet_dictOf {K V : Type} [DecidableEq K] (l : List (K × V)) (k : K) :
    dictGet (dictOf l) k = (l.reverse.find? fun p => p.1 = k).map (·.2) := by
  induction l using List.reverseRecOn with
  | nil => rfl
  | append_singleton l p ih =>
    rw [dictOf_append_single, dictGet_insert, List.reverse_append]
    simp only [List.reverse_cons, List.reverse_nil, List.nil_append, List.singleton_append,
      List.find?]
    by_cases hk : k = p.1
    · simp [hk]
    · have h1 : (decide (p.1 = k)) = false := decide_eq_false fun he => hk he.symm
      rw [if_neg hk, h1]
      exact ih

theorem find?_over_map {α β : Type} (f : α → β) (p : β → Bool) (l : List α) :
    (l.map f).find? p = (l.find? fun a => p (f a)).map f := by
  induction l with
  | nil => rfl
  | cons a l ih =>
    simp only [List.map_cons, List.find?]
    by_cases h : p (f a) = true
    · simp [h]
    · rw [Bool.not_eq_true] at h
      simp [h, ih]

theorem dictGet_leafDict (names : List (List Char)) (n : List Char) :
    dictGet (dictOf (names.map fun nm => (leafOf nm, nm))) n =
      names.reverse.find? fun nm => leafOf nm = n := by
  rw [dictGet_dictOf, ← List.map_reverse, find?_over_map, Option.map_map]
  have hcomp :
      ((fun x : List Char × List Char => x.2) ∘ fun nm => (leafOf nm, nm)) = id := rfl
  rw [hcomp, Option.map_id]
  rfl

/-- The leaf-name dictionary lookup of `normalize_fieldtype`, as a
latest-declaration-wins search over the batch names. -/
theorem resolve_dct_eq (names : List String) (n : String) :
    dictGet (dictOf (((names.map (·.data)).map fun nm => (leafOf nm, nm)))) n.data =
      ((names.reverse.find? fun s => leafOf s.data = n.data).map (·.data)) := by
  rw [dictGet_leafDict, ← List.map_reverse, find?_over_map]

/-! ### Helper lemmas: paths over valid segments -/

theorem hasSub_of_append (pat a b : List Char) :
    hasSub pat (a ++ (pat ++ b)) = true := by
  unfold hasSub
  rw [List.any_eq_true]
  refine ⟨a.length, ?_, ?_⟩
  · rw [List.mem_range]
    have h1 : (a ++ (pat ++ b)).length = a.length + (pat.length + b.length) := by
      simp [List.length_append]
    omega
  · rw [List.drop_left, List.isPrefixOf_iff_prefix]
    exact List.prefix_append pat b

theorem pathParts_single (N : List Char) (hN : validSegL N = true) (hNs : '/' ∉ N) :
    pathParts N = [N] := by
  unfold pathParts
  rw [splitSlash_of_not_mem hNs]
  simp only [validSegL, Bool.and_eq_true, decide_eq_true_eq] at hN
  simp [hN.1, hN.2]

theorem pathParts_two (P N : List Char) (hP : validSegL P = true)
    (hN : validSegL N = true) (hPs : '/' ∉ P) (hNs : '/' ∉ N) :
    pathParts (P ++ '/' :: N) = [P, N] := by
  unfold pathParts
  rw [splitSlash_append N hPs, splitSlash_of_not_mem hNs]
  simp only [validSegL, Bool.and_eq_true, decide_eq_true_eq] at hP hN
  simp [hP.1, hP.2, hN.1, hN.2]

theorem pathParts_three (P N : List Char) (hP : validSegL P = true)
    (hN : validSegL N = true) (hPs : '/' ∉ P) (hNs : '/' ∉ N) :
    pathParts (P ++ '/' :: (msgSeg ++ '/' :: N)) = [P, msgSeg, N] := by
  unfold pathParts
  rw [splitSlash_append _ hPs, splitSlash_append _ (by decide),
    splitSlash_of_not_mem hNs]
  simp only [validSegL, Bool.and_eq_true, decide_eq_true_eq] at hP hN
  simp [hP.1, hP.2, hN.1, hN.2, msgSeg]

theorem splitSlash_joinSlash (segs : List (List Char)) (h : segs ≠ [])
    (hs : ∀ seg ∈ segs, '/' ∉ seg) : splitSlash (joinSlash segs) = segs := by
  induction segs with
  | nil => exact absurd rfl h
  | cons s ss ih =>
    cases ss with
    | nil =>
      show splitSlash s = [s]
      exact splitSlash_of_not_mem (hs s (List.mem_cons_self s []))
    | cons t ts =>
      show splitSlash (s ++ '/' :: joinSlash (t :: ts)) = s :: t :: ts
      rw [splitSlash_append _ (hs s (List.mem_cons_self s _))]
      rw [ih (by simp) fun seg hseg => hs seg (List.mem_cons_of_mem s hseg)]

theorem pathParts_of_valid (l : List Char)
    (h : (splitSlash l).all validSegL = true) : pathParts l = splitSlash l := by
  unfold pathParts
  rw [List.filter_eq_self]
  intro seg hseg
  have hv := (List.all_eq_true.mp h) seg hseg
  simp only [validSegL, Bool.and_eq_true, decide_eq_true_eq] at hv
  simp [hv.1, hv.2]

/-- The penultimate raw segment of `normalize_msgtype` of any valid scoped
name is `msg`. -/
theorem normalize_penult (n : String) (hv : validScoped n = true) :
    ((splitSlash (normalize_msgtype n).data).dropLast).getLast? = some msgSeg := by
  have hvv : ∀ seg ∈ splitSlash n.data, validSegL seg = true :=
    List.all_eq_true.mp hv
  have hparts : pathParts n.data = splitSlash n.data := pathParts_of_valid _ hv
  have hne : splitSlash n.data ≠ [] := splitSlash_ne_nil _
  have hnos : ∀ seg ∈ splitSlash n.data, '/' ∉ seg := mem_splitSlash_no_slash _
  unfold normalize_msgtype normalizeMsgtypeL
  rw [hparts]
  by_cases hcond : pName (pParent (splitSlash n.data)) = msgSeg
  · rw [if_pos hcond]
    have hstr : pathStr (splitSlash n.data) = joinSlash (splitSlash n.data) := by
      unfold pathStr
      rw [if_neg hne]
    have hd : (⟨pathStr (splitSlash n.data)⟩ : String).data =
        joinSlash (splitSlash n.data) := by
      show pathStr (splitSlash n.data) = _
      exact hstr
    rw [hd, splitSlash_joinSlash _ hne hnos]
    unfold pName pParent at hcond
    cases hq : (splitSlash n.data).dropLast.getLast? with
    | none =>
      rw [hq] at hcond
      exact absurd hcond (by decide)
    | some x =>
      rw [hq] at hcond
      simp only [Option.getD_some] at hcond
      rw [hcond]
  · rw [if_neg hcond]
    have hlmem : pName (splitSlash n.data) ∈ splitSlash n.data := by
      unfold pName
      cases hq : (splitSlash n.data).getLast? with
      | none => exact absurd (List.getLast?_eq_none_iff.mp hq) hne
      | some x => simpa using List.mem_of_mem_getLast? hq
    have hlv : validSegL (pName (splitSlash n.data)) = true := hvv _ hlmem
    have hls : '/' ∉ pName (splitSlash n.data) := hnos _ hlmem
    rw [pathParts_single _ hlv hls]
    have hne2 : pParent (splitSlash n.data) ++ [msgSeg] ++
        [pName (splitSlash n.data)] ≠ [] := by simp
    have hstr : pathStr (pParent (splitSlash n.data) ++ [msgSeg] ++
        [pName (splitSlash n.data)]) =
        joinSlash (pParent (splitSlash n.data) ++ [msgSeg] ++
          [pName (splitSlash n.data)]) := by
      unfold pathStr
      rw [if_neg hne2]
    have hd : (⟨pathStr (pParent (splitSlash n.data) ++ [msgSeg] ++
        [pName (splitSlash n.data)])⟩ : String).data =
        joinSlash (pParent (splitSlash n.data) ++ [msgSeg] ++
          [pName (splitSlash n.data)]) := hstr
    rw [hd, splitSlash_joinSlash _ hne2 ?hnos2]
    case hnos2 =>
      intro seg hseg
      rcases List.mem_append.mp hseg with hseg1 | hseg2
      · rcases List.mem_append.mp hseg1 with hseg3 | hseg4
        · exact hnos seg (List.dropLast_subset _ hseg3)
        · rw [List.mem_singleton.mp hseg4]
          decide
      · rw [List.mem_singleton.mp hseg2]
        exact hls
    rw [List.dropLast_concat, List.getLast?_concat]

/-- Normalizing a two-segment name `A/B` with `A ≠ msg` yields a
three-part FQN. -/
theorem normalize_two_part (n : String) (A B : List Char)
    (hsp : splitSlash n.data = [A, B]) (hA : validSegL A = true)
    (hB : validSegL B = true) (hAm : A ≠ msgSeg) :
    matchesFqn (normalize_msgtype n) = true := by
  have hnos := mem_splitSlash_no_slash n.data
  rw [hsp] at hnos
  have hAs : '/' ∉ A := hnos A (by simp)
  have hBs : '/' ∉ B := hnos B (by simp)
  have hA1 : A ≠ [] := by
    simp only [validSegL, Bool.and_eq_true, decide_eq_true_eq] at hA
    exact hA.1
  have hB1 : B ≠ [] := by
    simp only [validSegL, Bool.and_eq_true, decide_eq_true_eq] at hB
    exact hB.1
  have hparts : pathParts n.data = [A, B] := by
    rw [pathParts_of_valid _ (by rw [hsp]; simp [hA, hB]), hsp]
  unfold normalize_msgtype normalizeMsgtypeL
  rw [hparts, if_neg (show ¬(pName (pParent [A, B]) = msgSeg) from hAm)]
  have hpn : pName [A, B] = B := rfl
  rw [hpn, pathParts_single B hB hBs]
  have hd : (⟨pathStr (pParent [A, B] ++ [msgSeg] ++ [B])⟩ : String).data =
      joinSlash [A, msgSeg, B] := by
    show pathStr [A, msgSeg, B] = _
    unfold pathStr
    rw [if_neg (by simp)]
  unfold matchesFqn
  rw [hd, splitSlash_joinSlash _ (by simp) ?slashfree]
  case slashfree =>
    intro seg hseg
    simp only [List.mem_cons, List.not_mem_nil, or_false] at hseg
    rcases hseg with rfl | rfl | rfl
    · exact hAs
    · decide
    · exact hBs
  simp [hA1, hB1]

/-- Normalizing an already-qualified three-segment name `A/msg/C` leaves
it a three-part FQN. -/
theorem normalize_three_part (n : String) (A C : List Char)
    (hsp : splitSlash n.data = [A, msgSeg, C]) (hA : validSegL A = true)
    (hC : validSegL C = true) :
    matchesFqn (normalize_msgtype n) = true := by
  have hnos := mem_splitSlash_no_slash n.data
  rw [hsp] at hnos
  have hAs : '/' ∉ A := hnos A (by simp)
  have hCs : '/' ∉ C := hnos C (by simp)
  have hA1 : A ≠ [] := by
    simp only [validSegL, Bool.and_eq_true, decide_eq_true_eq] at hA
    exact hA.1
  have hC1 : C ≠ [] := by
    simp only [validSegL, Bool.and_eq_true, decide_eq_true_eq] at hC
    exact hC.1
  have hparts : pathParts n.data = [A, msgSeg, C] := by
    rw [pathParts_of_valid _
      (by rw [hsp]; simp [hA, hC, show validSegL msgSeg = true from by decide]), hsp]
  unfold normalize_msgtype normalizeMsgtypeL
  rw [hparts, if_pos (show pName (pParent [A, msgSeg, C]) = msgSeg from rfl)]
  have hd : (⟨pathStr [A, msgSeg, C]⟩ : String).data =
      joinSlash [A, msgSeg, C] := by
    show pathStr [A, msgSeg, C] = _
    unfold pathStr
    rw [if_neg (by simp)]
  unfold matchesFqn
  rw [hd, splitSlash_joinSlash _ (by simp) ?slashfree]
  case slashfree =>
    intro seg hseg
    simp only [List.mem_cons, List.not_mem_nil, or_false] at hseg
    rcases hseg with rfl | rfl | rfl
    · exact hAs
    · decide
    · exact hCs
  simp [hA1, hC1]

theorem dictInsert_keys {K V : Type} [DecidableEq K] (d : List (K × V))
    (k : K) (v : V) :
    ∀ k' ∈ (dictInsert d k v).map (·.1), k' = k ∨ k' ∈ d.map (·.1) := by
  intro k' hk'
  unfold dictInsert at hk'
  by_cases h : (d.any fun p => p.1 = k) = true
  · rw [if_pos h] at hk'
    rcases List.mem_map.mp hk' with ⟨p, hp, hpk⟩
    rcases List.mem_map.mp hp with ⟨q, hq, hqp⟩
    by_cases hqk : q.1 = k
    · rw [if_pos hqk] at hqp
      rw [← hqp] at hpk
      exact Or.inl hpk.symm
    · rw [if_neg hqk] at hqp
      right
      rw [← hpk, ← hqp]
      exact List.mem_map.mpr ⟨q, hq, rfl⟩
  · rw [if_neg h, List.map_append] at hk'
    rcases List.mem_append.mp hk' with h1 | h2
    · exact Or.inr h1
    · simp only [List.map_cons, List.map_nil, List.mem_singleton] at h2
      exact Or.inl h2

theorem dictOf_keys {K V : Type} [DecidableEq K] (l : List (K × V)) :
    ∀ k ∈ (dictOf l).map (·.1), ∃ p ∈ l, k = p.1 := by
  induction l using List.reverseRecOn with
  | nil => simp [dictOf]
  | append_singleton l p ih =>
    intro k hk
    rw [dictOf_append_single] at hk
    rcases dictInsert_keys (dictOf l) p.1 p.2 k hk with h1 | h2
    · exact ⟨p, by simp, h1⟩
    · rcases ih k h2 with ⟨q, hq, hqk⟩
      exact ⟨q, List.mem_append_left _ hq, hqk⟩

/-- Unpack the string-level `validSeg` into its list-level facts. -/
theorem validSeg_facts {s : String} (h : validSeg s = true) :
    validSegL s.data = true ∧ '/' ∉ s.data := by
  simp only [validSeg, Bool.and_eq_true, decide_eq_true_eq] at h
  obtain ⟨⟨h1, h2⟩, h3⟩ := h
  refine ⟨?_, ?_⟩
  · simp only [validSegL, Bool.and_eq_true, decide_eq_true_eq]
    constructor
    · intro he
      exact h1 (String.ext he)
    · intro he
      exact h2 (String.ext he)
  · intro hm
    exact h3 (List.elem_iff.mpr hm)

/-! ### Helper lemmas: field-type resolution (claim C2) -/

theorem find?_congr {α : Type} (p q : α → Bool) (l : List α)
    (h : ∀ a ∈ l, p a = q a) : l.find? p = l.find? q := by
  induction l with
  | nil => rfl
  | cons a as ih =>
    simp only [List.find?]
    rw [h a (List.mem_cons_self a as)]
    cases hq : q a with
    | true => rfl
    | false => exact ih fun x hx => h x (List.mem_cons_of_mem a hx)

theorem fqn_data (p l : String) :
    (p ++ "/msg/" ++ l).data = p.data ++ ('/' :: (msgSeg ++ '/' :: l.data)) := by
  have h1 : (p ++ "/msg/" ++ l).data = (p.data ++ "/msg/".data) ++ l.data := rfl
  rw [h1, List.append_assoc]
  rfl

theorem fqn_split (p l : String) (hp : validSeg p = true) (hl : validSeg l = true) :
    splitSlash (p ++ "/msg/" ++ l).data = [p.data, msgSeg, l.data] := by
  obtain ⟨_, hps⟩ := validSeg_facts hp
  obtain ⟨_, hls⟩ := validSeg_facts hl
  rw [fqn_data, splitSlash_append _ hps, splitSlash_append _ (by decide),
    splitSlash_of_not_mem hls]

theorem fqn_parts (p l : String) (hp : validSeg p = true) (hl : validSeg l = true) :
    pathParts (p ++ "/msg/" ++ l).data = [p.data, msgSeg, l.data] := by
  obtain ⟨hpv, hps⟩ := validSeg_facts hp
  obtain ⟨hlv, hls⟩ := validSeg_facts hl
  rw [fqn_data]
  exact pathParts_three p.data l.data hpv hlv hps hls

theorem leafOf_fqn (p l : String) (hp : validSeg p = true) (hl : validSeg l = true) :
    leafOf (p ++ "/msg/" ++ l).data = l.data := by
  unfold leafOf
  rw [fqn_parts p l hp hl]
  rfl

theorem specLeafMatch_fqn (p l n : String) (hp : validSeg p = true)
    (hl : validSeg l = true) :
    specLeafMatch (p ++ "/msg/" ++ l) n = decide (l.data = n.data) := by
  obtain ⟨hpv, _⟩ := validSeg_facts hp
  unfold specLeafMatch
  rw [fqn_split p l hp hl]
  simp only [validSegL, Bool.and_eq_true, decide_eq_true_eq] at hpv
  simp [hpv.1]

/-- A valid scoped name without a slash is itself one valid segment. -/
theorem validScoped_no_slash {n : String} (hn : validScoped n = true)
    (hns : n.data.contains '/' = false) : validSegL n.data = true := by
  have hsp : splitSlash n.data = [n.data] := by
    apply splitSlash_of_not_mem
    intro hm
    have hc : n.data.contains '/' = true := List.elem_iff.mpr hm
    rw [hc] at hns
    exact Bool.true_eq_false.mp hns
  have := List.all_eq_true.mp hn n.data
  rw [hsp] at this
  exact this (by simp)

theorem pName_mem (segs : List (List Char)) (h : segs ≠ []) : pName segs ∈ segs := by
  unfold pName
  cases hq : segs.getLast? with
  | none => exact absurd (List.getLast?_eq_none_iff.mp hq) h
  | some x => simpa using List.mem_of_mem_getLast? hq

/-- The resolution chain of `normalize_fieldtype` coincides with the
spec's worded rules on well-formed inputs: fully-qualified batch names,
a fully-qualified owner type name, and a grammar-valid field type name. -/
theorem resolve_eq_spec (typename n : String) (names : List String)
    (hT : ∃ pkg owner : String, typename = pkg ++ "/msg/" ++ owner
        ∧ validSeg pkg = true ∧ validSeg owner = true)
    (hS : ∀ s ∈ names, ∃ p l : String, s = p ++ "/msg/" ++ l
        ∧ validSeg p = true ∧ validSeg l = true)
    (hn : validScoped n = true) :
    resolveL typename.data n.data (names.map (·.data)) =
      (specResolve typename n names).data := by
  have hpred : ∀ s ∈ names,
      (decide (leafOf s.data = n.data)) = specLeafMatch s n := by
    intro s hs
    rcases hS s hs with ⟨p, l, rfl, hp, hl⟩
    rw [specLeafMatch_fqn p l n hp hl, leafOf_fqn p l hp hl]
  have hfind : (names.reverse.find? fun s => leafOf s.data = n.data) =
      (names.reverse.find? fun s => specLeafMatch s n) :=
    find?_congr _ _ _ fun s hs => hpred s (List.mem_reverse.mp hs)
  show (match dictGet (dictOf ((names.map (·.data)).map fun nm => (leafOf nm, nm)))
      n.data with
    | some v => v
    | none =>
      if n.data = "Header".data then "std_msgs/msg/Header".data
      else if ¬n.data.contains '/' then
        pathStr (pParent (pathParts typename.data) ++ pathParts n.data)
      else if ¬hasSub "/msg/".data n.data then
        pathStr (pParent (pathParts n.data) ++ [msgSeg] ++
          pathParts (pName (pathParts n.data)))
      else n.data) = (specResolve typename n names).data
  rw [resolve_dct_eq, hfind]
  cases hfound : names.reverse.find? fun s => specLeafMatch s n with
  | some m =>
    simp only [Option.map_some']
    have hm_mem : m ∈ names := List.mem_reverse.mp (List.mem_of_find?_eq_some hfound)
    have hm_match : specLeafMatch m n = true := by
      have h := List.find?_some hfound
      exact h
    rcases hS m hm_mem with ⟨p, l, hme, hp, hl⟩
    have hln : l.data = n.data := by
      rw [hme, specLeafMatch_fqn p l n hp hl] at hm_match
      exact of_decide_eq_true hm_match
    have hnsl : ¬n.data.contains '/' = true := by
      obtain ⟨_, hls⟩ := validSeg_facts hl
      rw [← hln]
      intro hc
      exact hls (List.elem_iff.mp hc)
    have hany : (names.any fun s => specLeafMatch s n) = true :=
      List.any_eq_true.mpr ⟨m, hm_mem, hm_match⟩
    unfold specResolve
    rw [if_pos ⟨hnsl, hany⟩, hfound]
    rfl
  | none =>
    simp only [Option.map_none']
    have hany : ¬(names.any fun s => specLeafMatch s n) = true := by
      intro ha
      rcases List.any_eq_true.mp ha with ⟨m, hm, hmt⟩
      exact (List.find?_eq_none.mp hfound m (List.mem_reverse.mpr hm)) hmt
    unfold specResolve
    rw [if_neg (fun hcond : ¬n.data.contains '/' = true ∧
        (names.any fun s => specLeafMatch s n) = true => hany hcond.2)]
    by_cases hH : n.data = "Header".data
    · rw [if_pos hH, if_pos (String.ext hH : n = "Header")]
    · rw [if_neg hH, if_neg fun he : n = "Header" => hH (congrArg String.data he)]
      by_cases hc : n.data.contains '/' = true
      · rw [if_neg (not_not_intro hc), if_neg (not_not_intro hc)]
        by_cases hms : hasSub "/msg/".data n.data = true
        · rw [if_neg (not_not_intro hms), if_neg (not_not_intro hms)]
        · rw [if_pos hms, if_pos hms]
          have hparts : pathParts n.data = splitSlash n.data := pathParts_of_valid _ hn
          have hne : splitSlash n.data ≠ [] := splitSlash_ne_nil _
          have hLmem : pName (splitSlash n.data) ∈ splitSlash n.data :=
            pName_mem _ hne
          have hLv : validSegL (pName (splitSlash n.data)) = true :=
            List.all_eq_true.mp hn _ hLmem
          have hLs : '/' ∉ pName (splitSlash n.data) :=
            mem_splitSlash_no_slash _ _ hLmem
          rw [hparts, pathParts_single _ hLv hLs]
          show pathStr ((splitSlash n.data).dropLast ++ [msgSeg] ++
            [pName (splitSlash n.data)]) = _
          unfold pathStr
          rw [if_neg (by simp), List.append_assoc]
          rfl
      · rw [if_pos hc, if_pos hc]
        rcases hT with ⟨pkg, owner, rfl, hpk, how⟩
        have hnv : validSegL n.data = true :=
          validScoped_no_slash hn (Bool.not_eq_true _ ▸ hc)
        have hnsl2 : '/' ∉ n.data := by
          intro hm
          exact hc (List.elem_iff.mpr hm)
        rw [fqn_parts pkg owner hpk how, pathParts_single n.data hnv hnsl2]
        show pathStr ([pkg.data, msgSeg] ++ [n.data]) = _
        unfold pathStr
        rw [if_neg (by simp), fqn_split pkg owner hpk how]
        rfl

/-! ### Helper lemmas: the struct cache of `hash_rihs01` (claim C3) -/

theorem getField_cacheOk (recur : String → Cache → Except PyErr (StructJson × Cache))
    (hrec : ∀ t c s c', (∀ p ∈ c, (p.2).type_name = p.1) → recur t c = .ok (s, c') →
      ∀ p ∈ c', (p.2).type_name = p.1)
    (name : String) (desc : Fielddesc) (c : Cache) (f : FieldJson) (c' : Cache)
    (hc : ∀ p ∈ c, (p.2).type_name = p.1)
    (h : getField recur name desc c = .ok (f, c')) :
    ∀ p ∈ c', (p.2).type_name = p.1 := by
  cases hi : idescOf desc with
  | name subtype =>
    simp only [getField, hi] at h
    cases hr : recur subtype c with
    | error e =>
      rw [hr] at h
      exact absurd h (by simp)
    | ok pc =>
      obtain ⟨s, c''⟩ := pc
      rw [hr] at h
      simp only [Except.ok.injEq, Prod.mk.injEq] at h
      rw [← h.2]
      exact hrec subtype c s c'' hc hr
  | base rest =>
    cases rest with
    | pair bn bound =>
      by_cases hb : bound ≠ 0
      · simp only [getField, hi, if_pos hb, Except.ok.injEq, Prod.mk.injEq] at h
        rw [← h.2]
        exact hc
      · simp only [getField, hi, if_neg hb, Except.ok.injEq, Prod.mk.injEq] at h
        rw [← h.2]
        exact hc
    | bare bn =>
      cases ht : dictGet TIDMAP bn with
      | none =>
        simp only [getField, hi, ht] at h
        exact absurd h (by simp)
      | some tid =>
        simp only [getField, hi, ht, Except.ok.injEq, Prod.mk.injEq] at h
        rw [← h.2]
        exact hc

theorem getFields_cacheOk (recur : String → Cache → Except PyErr (StructJson × Cache))
    (hrec : ∀ t c s c', (∀ p ∈ c, (p.2).type_name = p.1) → recur t c = .ok (s, c') →
      ∀ p ∈ c', (p.2).type_name = p.1) :
    ∀ (fs : List (String × Fielddesc)) (c : Cache) (js : List FieldJson) (c' : Cache),
      (∀ p ∈ c, (p.2).type_name = p.1) →
      getFields recur fs c = .ok (js, c') → ∀ p ∈ c', (p.2).type_name = p.1 := by
  intro fs
  induction fs with
  | nil =>
    intro c js c' hc h
    simp only [getFields, Except.ok.injEq, Prod.mk.injEq] at h
    rw [← h.2]
    exact hc
  | cons f fs ih =>
    intro c js c' hc h
    simp only [getFields] at h
    cases hgf : getField recur f.1 f.2 c with
    | error e =>
      rw [hgf] at h
      exact absurd h (by simp)
    | ok pc =>
      obtain ⟨j, c1⟩ := pc
      rw [hgf] at h
      dsimp only [] at h
      cases hrest : getFields recur fs c1 with
      | error e =>
        rw [hrest] at h
        exact absurd h (by simp)
      | ok pc2 =>
        obtain ⟨js2, c2⟩ := pc2
        rw [hrest] at h
        simp only [Except.ok.injEq, Prod.mk.injEq] at h
        rw [← h.2]
        exact ih c1 js2 c2 (getField_cacheOk recur hrec f.1 f.2 c j c1 hc hgf) hrest

theorem getStruct_cacheOk (ts : Typesdict) :
    ∀ (fuel : Nat) (typ : String) (c : Cache) (s : StructJson) (c' : Cache),
      (∀ p ∈ c, (p.2).type_name = p.1) →
      getStruct ts fuel typ c = .ok (s, c') → ∀ p ∈ c', (p.2).type_name = p.1 := by
  intro fuel
  induction fuel with
  | zero =>
    intro typ c s c' hc h
    exact absurd h (by simp [getStruct])
  | succ fuel ih =>
    intro typ c s c' hc h
    simp only [getStruct] at h
    cases hcache : dictGet c typ with
    | some s0 =>
      rw [hcache] at h
      simp only [Except.ok.injEq, Prod.mk.injEq] at h
      rw [← h.2]
      exact hc
    | none =>
      rw [hcache] at h
      cases hts : dictGet ts typ with
      | none =>
        rw [hts] at h
        exact absurd h (by simp)
      | some cf =>
        obtain ⟨cs, flds⟩ := cf
        rw [hts] at h
        dsimp only [] at h
        cases hgf : getFields (getStruct ts fuel)
            (if flds.isEmpty then [sentinelField] else flds) c with
        | error e =>
          rw [hgf] at h
          exact absurd h (by simp)
        | ok pc =>
          obtain ⟨js, c''⟩ := pc
          rw [hgf] at h
          simp only [Except.ok.injEq, Prod.mk.injEq] at h
          rw [← h.2]
          intro p hp
          rcases List.mem_append.mp hp with hp1 | hp2
          · exact getFields_cacheOk (getStruct ts fuel) ih _ c js c'' hc hgf p hp1
          · rw [List.mem_singleton.mp hp2]

/-- With an empty initial cache, the returned root struct carries the
requested type name. -/
theorem getStruct_root_name (ts : Typesdict) (fuel : Nat) (typ : String)
    (s : StructJson) (c' : Cache) (h : getStruct ts (fuel + 1) typ [] = .ok (s, c')) :
    s.type_name = typ := by
  simp only [getStruct] at h
  rw [dictGet_nil] at h
  cases hts : dictGet ts typ with
  | none =>
    rw [hts] at h
    exact absurd h (by simp)
  | some cf =>
    obtain ⟨cs, flds⟩ := cf
    rw [hts] at h
    dsimp only [] at h
    cases hgf : getFields (getStruct ts fuel)
        (if flds.isEmpty then [sentinelField] else flds) [] with
    | error e =>
      rw [hgf] at h
      exact absurd h (by simp)
    | ok pc =>
      obtain ⟨js, c''⟩ := pc
      rw [hgf] at h
      simp only [Except.ok.injEq, Prod.mk.injEq] at h
      rw [← h.1]

theorem hexDigit_mem (n : Nat) (h : n < 16) :
    hexDigit n ∈ "0123456789abcdef".data := by
  interval_cases n <;> decide

theorem hexDigest_chars (bytes : List Nat) :
    ∀ ch ∈ (hexDigest bytes).data, ch ∈ "0123456789abcdef".data := by
  intro ch hch
  have hd : (hexDigest bytes).data = (bytes.map byteHex).flatten := rfl
  rw [hd] at hch
  rcases List.mem_flatten.mp hch with ⟨seg, hseg, hchseg⟩
  rcases List.mem_map.mp hseg with ⟨b, _, rfl⟩
  simp only [byteHex, List.mem_cons, List.not_mem_nil, or_false] at hchseg
  rcases hchseg with rfl | rfl
  · exact hexDigit_mem _ (Nat.mod_lt _ (by omega))
  · exact hexDigit_mem _ (Nat.mod_lt _ (by omega))

/-! ### Claim theorems -/

/-- C10: within one parse batch, the leaf-name table is built in
declaration order with overwrite, so a bare field type `n` resolves to the
LAST batch name whose leaf equals `n` — the type declared later wins. -/
theorem C10_later_declaration_wins (typename n m : String) (names : List String)
    (h : (names.reverse.find? fun s => leafOf s.data = n.data) = some m) :
    normalize_fieldtype typename (.name n) names = .name m := by
  have hd : dictGet (dictOf (((names.map (·.data)).map fun nm => (leafOf nm, nm)))) n.data =
      some m.data := by
    rw [resolve_dct_eq, h]
    rfl
  simp only [normalize_fieldtype, resolveL, hd]

/-- Witness for C10: `p1/msg/N` then `p2/msg/N` in one batch; the bare
name `N` resolves to the later `p2/msg/N`. -/
theorem C10_witness :
    ((["p1/msg/N", "p2/msg/N"] : List String).reverse.find? fun s =>
        leafOf s.data = "N".data) = some "p2/msg/N"
    ∧ normalize_fieldtype "pkg/msg/Owner" (.name "N") ["p1/msg/N", "p2/msg/N"] =
        .name "p2/msg/N" :=
  ⟨by decide, C10_later_declaration_wins "pkg/msg/Owner" "N" "p2/msg/N" _ (by decide)⟩

/-- C7 counterexample: the grammar admits an explicit zero literal inside
the brackets, and `visit_array_type_spec` then produces an ARRAY of length
0 (the one-element tuple `(0,)` is truthy), so parsing
`MSG: pkg/Foo\nuint8[0] x\n` stores an ARRAY field of length 0 < 1. -/
theorem C7_counterexample :
    visitSpecification parsedZeroArray =
      [("pkg/msg/Foo", ([], [("x", .array (.base (.pair "uint8" 0)) 0)]))]
    ∧ ¬(1 ≤ (0 : Int)) :=
  ⟨by decide, by decide⟩

/-- C7 amended: an empty bracket pair yields `SEQUENCE(inner, 0)` and
never an ARRAY; a bracket with an integer literal always yields an ARRAY
whose length is exactly that literal — which is at least 1 only when the
source literal is positive (an explicit `[0]` still yields an ARRAY). -/
theorem C7_array_length_is_literal (inner : Idesc) (lens : List Int) :
    (lens = [] → visit_array_type_spec inner lens = .sequence inner 0)
    ∧ ∀ inner' n, visit_array_type_spec inner lens = .array inner' n →
        inner' = inner ∧ lens.head? = some n := by
  constructor
  · intro h
    subst h
    rfl
  · intro inner' n h
    cases lens with
    | nil => simp [visit_array_type_spec] at h
    | cons m rest =>
      simp only [visit_array_type_spec, Fielddesc.array.injEq] at h
      exact ⟨h.1.symm, by rw [List.head?_cons, h.2]⟩

/-- Witness for C7. -/
theorem C7_witness :
    visit_array_type_spec (.base (.pair "uint8" 0)) [] =
      .sequence (.base (.pair "uint8" 0)) 0
    ∧ ((.base (.pair "uint8" 0) : Idesc) = .base (.pair "uint8" 0)
        ∧ ([2] : List Int).head? = some 2) :=
  ⟨(C7_array_length_is_literal (.base (.pair "uint8" 0)) []).1 rfl,
   (C7_array_length_is_literal (.base (.pair "uint8" 0)) [2]).2 _ 2 (by decide)⟩

/-- C8 counterexample: `x_` is a valid identifier and not a Python
keyword, yet stripping the normalized name (`rstrip('_')` drops every
trailing underscore) yields `x`, not `x_`. -/
theorem C8_counterexample :
    iskeyword "x_" = false
    ∧ rstripUnderscore (normalize_fieldname "x_") = "x"
    ∧ "x" ≠ "x_" :=
  ⟨by decide, by decide, by decide⟩

/-- C8 amended: identifier normalization round-trips for every non-keyword
identifier that does not itself end in an underscore. -/
theorem C8_strip_normalize_roundtrip (n : String) (hk : iskeyword n = false)
    (hu : n.data.getLast? ≠ some '_') :
    rstripUnderscore (normalize_fieldname n) = n := by
  unfold normalize_fieldname
  simp only [hk, Bool.false_eq_true, if_false]
  unfold rstripUnderscore
  cases hrev : n.data.reverse with
  | nil =>
    have hd : n.data = [] := by simpa using congrArg List.reverse hrev
    cases n with
    | mk d =>
      simp only at hd
      subst hd
      rfl
  | cons c cs =>
    have hc : c ≠ '_' := by
      intro he
      apply hu
      rw [← List.head?_reverse, hrev, he]
      rfl
    have hdw : List.dropWhile (fun x => decide (x = '_')) (c :: cs) = c :: cs := by
      rw [List.dropWhile_cons]
      simp [hc]
    rw [hdw]
    have hrr : (c :: cs).reverse = n.data := by
      rw [← hrev, List.reverse_reverse]
    rw [hrr]

/-- Witness for C8. -/
theorem C8_witness :
    iskeyword "value" = false
    ∧ ("value".data.getLast? ≠ some '_')
    ∧ rstripUnderscore (normalize_fieldname "value") = "value" :=
  ⟨by decide, by decide, C8_strip_normalize_roundtrip "value" (by decide) (by decide)⟩

/-- C5 counterexample: `hash_rihs01` has no unknown-type check — looking
up a missing type in `FIELDDEFS` raises a plain `KeyError`, not the
subsystem's `TypesysError` as the claim states. -/
theorem C5_counterexample :
    hash_rihs01 40 "pkg/msg/X" [] = .error (.keyError "pkg/msg/X")
    ∧ (PyErr.keyError "pkg/msg/X").isTypesys = false :=
  ⟨by rfl, by rfl⟩

/-- C5 amended: for a type name absent from the store, `gendefhash` (and
`generate_msgdef` through it) raises `TypesysError` carrying the repr of
the requested name, while `hash_rihs01` fails with a `KeyError` carrying
the name. -/
theorem C5_unknown_type_errors (ts : Typesdict) (ty : String) (fuel : Nat)
    (sd : Subdefs) (rosVersion : Nat) (h : dictGet ts ty = none) :
    gendefhash ts rosVersion (fuel + 1) ty sd =
      .error (.typesys ("Type '" ++ ty ++ "' is unknown."))
    ∧ hash_rihs01 (fuel + 1) ty ts = .error (.keyError ty)
    ∧ generate_msgdef (fuel + 1) ty ts rosVersion =
      .error (.typesys ("Type '" ++ ty ++ "' is unknown.")) := by
  have hg : ∀ sd' : Subdefs, gendefhash ts rosVersion (fuel + 1) ty sd' =
      .error (.typesys ("Type '" ++ ty ++ "' is unknown.")) := fun sd' => by
    simp only [gendefhash, h]
  refine ⟨hg sd, ?_, ?_⟩
  · simp only [hash_rihs01, getStruct, dictGet_nil, h]
  · simp only [generate_msgdef, hg []]

/-- Witness for C5. -/
theorem C5_witness :
    gendefhash [] 1 40 "pkg/msg/Y" [] =
      .error (.typesys ("Type '" ++ "pkg/msg/Y" ++ "' is unknown."))
    ∧ hash_rihs01 40 "pkg/msg/Y" [] = .error (.keyError "pkg/msg/Y")
    ∧ generate_msgdef 40 "pkg/msg/Y" [] 1 =
      .error (.typesys ("Type '" ++ "pkg/msg/Y" ++ "' is unknown.")) :=
  C5_unknown_type_errors [] "pkg/msg/Y" 39 [] 1 rfl

/-- C1 counterexample: with the parsed descriptor shapes, a `bool[3]`
field (an ARRAY) takes increment 48 — not 96 — and its `(basename, 0)`
payload takes the plain-string base id 17 — not 15 — so its `type_id` is
65, not the claimed 96 + 15 = 111; likewise an unbounded `bool` sequence
gets 144 + 17 = 161 rather than the claimed 48 + 15 = 63. -/
theorem C1_counterexample :
    (rihs01Payload 9 "pkg/msg/Foo"
        [("pkg/msg/Foo",
          ([], [("b", .array (.base (.pair "bool" 0)) 3),
                ("s", .sequence (.base (.pair "bool" 0)) 0)]))]).map
      payloadRootTypeIds = .ok [65, 161]
    ∧ (65 : Int) ≠ 96 + 15 ∧ (161 : Int) ≠ 48 + 15 :=
  ⟨by rfl, by decide, by decide⟩

/-- C1 amended: in the structural hash every field's `type_id` is
`increment + base_id` where the increment is 48 for an ARRAY (any
length), 96 for a SEQUENCE with non-zero bound, 144 for a SEQUENCE with
bound 0, and 0 otherwise; and the base id is 1 for a nested name, 21/17
for a `(basename, bound)` payload (bounded/unbounded, regardless of the
basename), and the `TIDMAP` entry for a bare basename payload. -/
theorem C1_type_id_mapping (recur : String → Cache → Except PyErr (StructJson × Cache))
    (name : String) (desc : Fielddesc) (cache : Cache) (f : FieldJson) (c' : Cache)
    (h : getField recur name desc cache = .ok (f, c')) :
    ∃ b, amendedBaseId desc = some b
      ∧ f.typ.type_id = amendedIncrement desc + b := by
  cases hi : idescOf desc with
  | name subtype =>
    simp only [getField, hi] at h
    cases hr : recur subtype cache with
    | error e =>
      rw [hr] at h
      exact absurd h (by simp)
    | ok pc =>
      rw [hr] at h
      simp only [Except.ok.injEq, Prod.mk.injEq] at h
      obtain ⟨hj, _⟩ := h
      subst hj
      exact ⟨1, by simp [amendedBaseId, hi], rfl⟩
  | base rest =>
    cases rest with
    | pair bn bound =>
      by_cases hb : bound ≠ 0
      · simp only [getField, hi, if_pos hb] at h
        simp only [Except.ok.injEq, Prod.mk.injEq] at h
        obtain ⟨hj, _⟩ := h
        subst hj
        exact ⟨21, by simp [amendedBaseId, hi, if_pos hb], rfl⟩
      · simp only [getField, hi, if_neg hb] at h
        simp only [Except.ok.injEq, Prod.mk.injEq] at h
        obtain ⟨hj, _⟩ := h
        subst hj
        exact ⟨17, by simp [amendedBaseId, hi, if_neg hb], rfl⟩
    | bare bn =>
      cases ht : dictGet TIDMAP bn with
      | none =>
        simp only [getField, hi, ht] at h
        exact absurd h (by simp)
      | some tid =>
        simp only [getField, hi, ht] at h
        simp only [Except.ok.injEq, Prod.mk.injEq] at h
        obtain ⟨hj, _⟩ := h
        subst hj
        exact ⟨tid, by simp [amendedBaseId, hi, ht], rfl⟩

/-- Witness for C1: the `bool[3]` field as parsed gets type id
48 + 17 = 65. -/
theorem C1_witness :
    ∃ b, amendedBaseId (.array (.base (.pair "bool" 0)) 3) = some b
      ∧ (FieldJson.mk "b" ⟨65, 3, 0, ""⟩).typ.type_id =
        amendedIncrement (.array (.base (.pair "bool" 0)) 3) + b :=
  C1_type_id_mapping (fun _ _ => .error .noFuel) "b"
    (.array (.base (.pair "bool" 0)) 3) [] ⟨"b", ⟨65, 3, 0, ""⟩⟩ [] rfl

/-- C3 counterexample: the JSON actually hashed is `json.dumps` with the
default separators — it contains spaces after colons and commas — so the
returned identifier is NOT the SHA-256 of a whitespace-free canonical
serialization of the payload. -/
theorem C3_counterexample :
    (rihs01Payload 9 "pkg/msg/Foo"
        [("pkg/msg/Foo", ([], [("b", .array (.base (.pair "bool" 0)) 3),
                               ("s", .sequence (.base (.pair "bool" 0)) 0)]))]).map
      (fun d => (dumpsPayload d).data.contains ' ') = .ok true
    ∧ hash_rihs01 9 "pkg/msg/Foo"
        [("pkg/msg/Foo", ([], [("b", .array (.base (.pair "bool" 0)) 3),
                               ("s", .sequence (.base (.pair "bool" 0)) 0)]))] ≠
      (rihs01Payload 9 "pkg/msg/Foo"
          [("pkg/msg/Foo", ([], [("b", .array (.base (.pair "bool" 0)) 3),
                                 ("s", .sequence (.base (.pair "bool" 0)) 0)]))]).map
        (fun d => "RIHS01_" ++ hexDigest (sha256 (utf8Encode (dumpsPayloadC d)))) :=
  ⟨by rfl, by decide⟩

/-- C3 amended: the returned identifier is `RIHS01_` plus the lowercase
hex SHA-256 of the UTF-8 encoding of the payload serialized by
`json.dumps` with its default separators `', '` and `': '` (keys in the
specified insertion order, but WITH a space after every comma and colon);
the payload carries the root type description first and the referenced
type descriptions sorted lexicographically by type name with the root
type excluded. -/
theorem C3_canonical_json (fuel : Nat) (ts : Typesdict) (typ : String) :
    hash_rihs01 fuel typ ts =
      (rihs01Payload fuel typ ts).map (fun d =>
        "RIHS01_" ++ hexDigest (sha256 (utf8Encode (dumpsPayload d))))
    ∧ (∀ bytes : List Nat, ∀ ch ∈ (hexDigest bytes).data,
        ch ∈ "0123456789abcdef".data)
    ∧ ∀ root cache, getStruct ts fuel typ [] = .ok (root, cache) →
        rihs01Payload fuel typ ts =
          .ok ⟨root, ((sortByKey cache).filter fun p => p.1 ≠ typ).map (·.2)⟩
        ∧ root.type_name = typ
        ∧ (((sortByKey cache).filter fun p => p.1 ≠ typ).map (·.2)).Pairwise
            (fun a b => a.type_name ≤ b.type_name)
        ∧ ∀ s ∈ ((sortByKey cache).filter fun p => p.1 ≠ typ).map (·.2),
            s.type_name ≠ typ := by
  refine ⟨?_, hexDigest_chars, ?_⟩
  · unfold hash_rihs01 rihs01Payload
    cases h : getStruct ts fuel typ [] with
    | error e => rfl
    | ok pc =>
      obtain ⟨root, cache⟩ := pc
      rfl
  · intro root cache h
    have hok : ∀ p ∈ sortByKey cache, (p.2).type_name = p.1 := by
      intro p hp
      have hmem : p ∈ cache := (List.perm_insertionSort _ _).mem_iff.mp hp
      exact getStruct_cacheOk ts fuel typ [] root cache (by simp) h p hmem
    refine ⟨?_, ?_, ?_, ?_⟩
    · unfold rihs01Payload
      rw [h]
    · cases fuel with
      | zero => exact absurd h (by simp [getStruct])
      | succ fuel => exact getStruct_root_name ts fuel typ root cache h
    · have hsorted : (sortByKey cache).Pairwise
          (fun a b : String × StructJson => a.1 ≤ b.1) :=
        List.sorted_insertionSort _ _
      have hfilter : ((sortByKey cache).filter fun p => p.1 ≠ typ).Pairwise
          (fun a b : String × StructJson => a.1 ≤ b.1) :=
        hsorted.sublist (List.filter_sublist _)
      rw [List.pairwise_map]
      refine hfilter.imp_of_mem ?_
      intro a b ha hb hle
      have ha' : a ∈ sortByKey cache := List.mem_of_mem_filter ha
      have hb' : b ∈ sortByKey cache := List.mem_of_mem_filter hb
      show a.2.type_name ≤ b.2.type_name
      rw [hok a ha', hok b hb']
      exact hle
    · intro s hs
      rcases List.mem_map.mp hs with ⟨p, hp, rfl⟩
      have hp1 : p.1 ≠ typ := of_decide_eq_true (List.mem_filter.mp hp).2
      have hps : p ∈ sortByKey cache := List.mem_of_mem_filter hp
      rw [hok p hps]
      exact hp1

/-- Witness for C3, on a store with two referenced types. -/
theorem C3_witness :
    hash_rihs01 10 "pkg/msg/A"
        [("pkg/msg/A", ([], [("x", .name "pkg/msg/C"), ("y", .name "pkg/msg/B")])),
         ("pkg/msg/B", ([], [])),
         ("pkg/msg/C", ([], [("z", .base (.pair "string" 5))]))] =
      (rihs01Payload 10 "pkg/msg/A"
          [("pkg/msg/A", ([], [("x", .name "pkg/msg/C"), ("y", .name "pkg/msg/B")])),
           ("pkg/msg/B", ([], [])),
           ("pkg/msg/C", ([], [("z", .base (.pair "string" 5))]))]).map
        (fun d => "RIHS01_" ++ hexDigest (sha256 (utf8Encode (dumpsPayload d))))
    ∧ (∀ ch ∈ (hexDigest [202]).data, ch ∈ "0123456789abcdef".data)
    ∧ (rihs01Payload 10 "pkg/msg/A"
          [("pkg/msg/A", ([], [("x", .name "pkg/msg/C"), ("y", .name "pkg/msg/B")])),
           ("pkg/msg/B", ([], [])),
           ("pkg/msg/C", ([], [("z", .base (.pair "string" 5))]))] =
        .ok ⟨⟨"pkg/msg/A", [⟨"x", ⟨1, 0, 0, "pkg/msg/C"⟩⟩, ⟨"y", ⟨1, 0, 0, "pkg/msg/B"⟩⟩]⟩,
             ((sortByKey
                [("pkg/msg/C", ⟨"pkg/msg/C", [⟨"z", ⟨21, 0, 5, ""⟩⟩]⟩),
                 ("pkg/msg/B", ⟨"pkg/msg/B",
                    [⟨"structure_needs_at_least_one_member", ⟨3, 0, 0, ""⟩⟩]⟩),
                 ("pkg/msg/A", ⟨"pkg/msg/A",
                    [⟨"x", ⟨1, 0, 0, "pkg/msg/C"⟩⟩,
                     ⟨"y", ⟨1, 0, 0, "pkg/msg/B"⟩⟩]⟩)]).filter
                fun p => p.1 ≠ "pkg/msg/A").map (·.2)⟩
       ∧ (⟨"pkg/msg/A", [⟨"x", ⟨1, 0, 0, "pkg/msg/C"⟩⟩,
            ⟨"y", ⟨1, 0, 0, "pkg/msg/B"⟩⟩]⟩ : StructJson).type_name = "pkg/msg/A"
       ∧ (((sortByKey
              [("pkg/msg/C", ⟨"pkg/msg/C", [⟨"z", ⟨21, 0, 5, ""⟩⟩]⟩),
               ("pkg/msg/B", ⟨"pkg/msg/B",
                  [⟨"structure_needs_at_least_one_member", ⟨3, 0, 0, ""⟩⟩]⟩),
               ("pkg/msg/A", ⟨"pkg/msg/A",
                  [⟨"x", ⟨1, 0, 0, "pkg/msg/C"⟩⟩,
                   ⟨"y", ⟨1, 0, 0, "pkg/msg/B"⟩⟩]⟩)]).filter
              fun p => p.1 ≠ "pkg/msg/A").map (·.2)).Pairwise
            (fun a b => a.type_name ≤ b.type_name)
       ∧ ∀ s ∈ ((sortByKey
              [("pkg/msg/C", ⟨"pkg/msg/C", [⟨"z", ⟨21, 0, 5, ""⟩⟩]⟩),
               ("pkg/msg/B", ⟨"pkg/msg/B",
                  [⟨"structure_needs_at_least_one_member", ⟨3, 0, 0, ""⟩⟩]⟩),
               ("pkg/msg/A", ⟨"pkg/msg/A",
                  [⟨"x", ⟨1, 0, 0, "pkg/msg/C"⟩⟩,
                   ⟨"y", ⟨1, 0, 0, "pkg/msg/B"⟩⟩]⟩)]).filter
              fun p => p.1 ≠ "pkg/msg/A").map (·.2),
           s.type_name ≠ "pkg/msg/A") := by
  obtain ⟨h1, h2, h3⟩ := C3_canonical_json 10
    [("pkg/msg/A", ([], [("x", .name "pkg/msg/C"), ("y", .name "pkg/msg/B")])),
     ("pkg/msg/B", ([], [])),
     ("pkg/msg/C", ([], [("z", .base (.pair "string" 5))]))] "pkg/msg/A"
  exact ⟨h1, h2 [202],
    h3 ⟨"pkg/msg/A", [⟨"x", ⟨1, 0, 0, "pkg/msg/C"⟩⟩, ⟨"y", ⟨1, 0, 0, "pkg/msg/B"⟩⟩]⟩
      [("pkg/msg/C", ⟨"pkg/msg/C", [⟨"z", ⟨21, 0, 5, ""⟩⟩]⟩),
       ("pkg/msg/B", ⟨"pkg/msg/B",
          [⟨"structure_needs_at_least_one_member", ⟨3, 0, 0, ""⟩⟩]⟩),
       ("pkg/msg/A", ⟨"pkg/msg/A",
          [⟨"x", ⟨1, 0, 0, "pkg/msg/C"⟩⟩, ⟨"y", ⟨1, 0, 0, "pkg/msg/B"⟩⟩]⟩)]
      (by rfl)⟩

/-- C2 confirmed: on well-formed inputs — a fully-qualified owner name, a
batch of fully-qualified names, and a grammar-valid field — the code's
`normalize_fieldtype` resolves exactly by the spec's strict rule order:
batch leaf table first (even for `Header`), then the `Header` builtin,
then the owner's package, then `msg` insertion, else unchanged; BASE
fields are never rewritten and ARRAY/SEQUENCE rewrite the inner
descriptor. -/
theorem C2_resolution_rules (typename : String) (field : Fielddesc)
    (names : List String)
    (hT : ∃ pkg owner : String, typename = pkg ++ "/msg/" ++ owner
        ∧ validSeg pkg = true ∧ validSeg owner = true)
    (hS : ∀ s ∈ names, ∃ p l : String, s = p ++ "/msg/" ++ l
        ∧ validSeg p = true ∧ validSeg l = true)
    (hf : fieldNamesValid field = true) :
    normalize_fieldtype typename field names =
      specNormalizeFieldtype typename field names := by
  cases field with
  | base r => rfl
  | name n =>
    have hn : validScoped n = true := hf
    show Fielddesc.name ⟨resolveL typename.data n.data (names.map (·.data))⟩ =
      .name (specResolve typename n names)
    rw [resolve_eq_spec typename n names hT hS hn]
  | array i k =>
    cases i with
    | base r => rfl
    | name n =>
      have hn : validScoped n = true := hf
      show Fielddesc.array
          (.name ⟨resolveL typename.data n.data (names.map (·.data))⟩) k =
        .array (.name (specResolve typename n names)) k
      rw [resolve_eq_spec typename n names hT hS hn]
  | sequence i k =>
    cases i with
    | base r => rfl
    | name n =>
      have hn : validScoped n = true := hf
      show Fielddesc.sequence
          (.name ⟨resolveL typename.data n.data (names.map (·.data))⟩) k =
        .sequence (.name (specResolve typename n names)) k
      rw [resolve_eq_spec typename n names hT hS hn]

/-- Witness for C2: the batch entry `p2/msg/Header` beats the `Header`
builtin (rule 1 before rule 2). -/
theorem C2_witness :
    normalize_fieldtype "pkg/msg/Owner" (.name "Header") ["p2/msg/Header"] =
      specNormalizeFieldtype "pkg/msg/Owner" (.name "Header") ["p2/msg/Header"]
    ∧ specNormalizeFieldtype "pkg/msg/Owner" (.name "Header") ["p2/msg/Header"] =
      .name "p2/msg/Header" :=
  ⟨C2_resolution_rules "pkg/msg/Owner" (.name "Header") ["p2/msg/Header"]
      ⟨"pkg", "Owner", rfl, by decide, by decide⟩
      (fun s hs => by
        simp only [List.mem_singleton] at hs
        exact ⟨"p2", "Header", by rw [hs]; rfl, by decide, by decide⟩)
      (by decide),
   by decide⟩

/-- C4 counterexample: for a type with no constants and no fields the
definition-text list is just the appended empty string, so the returned
canonical text is `""` — it does not end with a trailing newline (the MD5
is that of the empty hash text). -/
theorem C4_counterexample :
    gendefhash [("pkg/msg/Empty", ([], []))] 1 40 "pkg/msg/Empty" [] =
      .ok (("", md5Hex ""), [])
    ∧ ("" : String).data.getLast? ≠ some '\n' :=
  ⟨by rfl, by decide⟩

/-- C4 amended: whenever `gendefhash` emits at least one line the
returned definition text ends with a trailing newline (for a type with no
emitted lines it is the empty string); and on the parse of
`MSG: pkg/Foo\nint32 x\n` the store holds `pkg/msg/Foo` with the single
`BASE('int32', 0)` field `x`, the definition text is exactly
`"int32 x\n"` and the hash is the MD5 of exactly the bytes `int32 x`. -/
theorem C4_trailing_newline_and_md5 (ts : Typesdict) (rv fuel : Nat) (ty : String)
    (sd : Subdefs) (res : (String × String) × Subdefs)
    (h : gendefhash ts rv (fuel + 1) ty sd = .ok res) (hne : res.1.1 ≠ "") :
    res.1.1.data.getLast? = some '\n'
    ∧ visitSpecification parsedMinimalScalar =
        [("pkg/msg/Foo", ([], [("x", .base (.pair "int32" 0))]))]
    ∧ gendefhash (visitSpecification parsedMinimalScalar) 1 40 "pkg/msg/Foo" [] =
        .ok (("int32 x\n", md5Hex "int32 x"), []) := by
  refine ⟨?_, by rfl, by rfl⟩
  simp only [gendefhash] at h
  cases hts : dictGet ts ty with
  | none =>
    rw [hts] at h
    exact absurd h (by simp)
  | some cf =>
    rw [hts] at h
    obtain ⟨consts, fields⟩ := cf
    dsimp only [] at h
    cases hfs : gdhFields (gendefhash ts rv fuel) (typemapFor rv) fields sd with
    | error e =>
      rw [hfs] at h
      exact absurd h (by simp)
    | ok r3 =>
      rw [hfs] at h
      obtain ⟨dls, hls, sd'⟩ := r3
      simp only [Except.ok.injEq] at h
      set lines :=
        (if rv = 1 ∧ ty = "std_msgs/msg/Header" then
          "uint32 seq" ::
            ((consts.map fun c =>
              c.typ ++ " " ++ rstripUnderscore c.name ++ "=" ++ c.value) ++ dls)
        else
          (consts.map fun c =>
            c.typ ++ " " ++ rstripUnderscore c.name ++ "=" ++ c.value) ++ dls)
        with hlines
      have hres : res.1.1 = joinNL (lines ++ [""]) := by
        rw [← h]
      cases hl : lines with
      | nil =>
        rw [hl] at hres
        exact absurd (by rw [hres]; rfl) hne
      | cons a as =>
        rw [hres, hl]
        exact joinNL_trailing (a :: as) (by simp)

/-- C6 counterexample: the accepted input `MSG: Foo\n` (a bare
single-identifier scoped name) yields the dictionary key `msg/Foo`, which
has only two slash-separated parts and does not match
`^[^/]+/msg/[^/]+$`. -/
theorem C6_counterexample :
    visitSpecification parsedBareName = [("msg/Foo", ([], []))]
    ∧ matchesFqn "msg/Foo" = false :=
  ⟨by rfl, by rfl⟩

/-- C6 amended: every key of a parsed dictionary is `normalize_msgtype`
of a declared scoped name; for every valid scoped name the normalized
key's second-to-last raw segment is literally `msg`; and the key matches
the full three-part regex exactly in the common cases — a two-segment
declaration `pkg/Name` with `pkg ≠ msg`, or an already qualified
`pkg/msg/Name`. -/
theorem C6_keys_penultimate_msg (batch : List (String × List Msgitem)) :
    (∀ k ∈ (visitSpecification batch).map (·.1), ∃ p ∈ batch, k = normalize_msgtype p.1)
    ∧ (∀ n : String, validScoped n = true →
        ((splitSlash (normalize_msgtype n).data).dropLast).getLast? = some msgSeg)
    ∧ (∀ (n : String) (A B : List Char), splitSlash n.data = [A, B] →
        validSegL A = true → validSegL B = true → A ≠ msgSeg →
        matchesFqn (normalize_msgtype n) = true)
    ∧ (∀ (n : String) (A C : List Char), splitSlash n.data = [A, msgSeg, C] →
        validSegL A = true → validSegL C = true →
        matchesFqn (normalize_msgtype n) = true) := by
  refine ⟨?_, normalize_penult, ?_, ?_⟩
  · intro k hk
    unfold visitSpecification at hk
    rw [List.map_map] at hk
    have hk' : k ∈ (dictOf (batch.map fun p => (normalize_msgtype p.1, p.2))).map (·.1) :=
      hk
    rcases dictOf_keys _ k hk' with ⟨q, hq, hkq⟩
    rcases List.mem_map.mp hq with ⟨p, hp, hpq⟩
    refine ⟨p, hp, ?_⟩
    rw [hkq, ← hpq]
  · intro n A B hsp hA hB hAm
    exact normalize_two_part n A B hsp hA hB hAm
  · intro n A C hsp hA hC
    exact normalize_three_part n A C hsp hA hC

/-- Witness for C6. -/
theorem C6_witness :
    (∃ p ∈ ([("pkg/Foo", [])] : List (String × List Msgitem)),
      ("pkg/msg/Foo" : String) = normalize_msgtype p.1)
    ∧ ((splitSlash (normalize_msgtype "pkg/Foo").data).dropLast).getLast? =
        some msgSeg
    ∧ matchesFqn (normalize_msgtype "pkg/Foo") = true
    ∧ matchesFqn (normalize_msgtype "a/msg/B") = true := by
  obtain ⟨h1, h2, h3, h4⟩ := C6_keys_penultimate_msg [("pkg/Foo", [])]
  exact ⟨h1 "pkg/msg/Foo" (by decide), h2 "pkg/Foo" (by decide),
    h3 "pkg/Foo" "pkg".data "Foo".data (by decide) (by decide) (by decide)
      (by decide),
    h4 "a/msg/B" "a".data "B".data (by decide) (by decide) (by decide)⟩

/-- C9 counterexample: `msg/msg/Name` is a well-formed FQN (it matches
`^[^/]+/msg/[^/]+$` with package `msg`), but denormalizing yields
`msg/Name`, which re-normalization leaves unchanged — the round trip
loses a segment. -/
theorem C9_counterexample :
    (denormalize_msgtype "msg/msg/Name").map normalize_msgtype = .ok "msg/Name"
    ∧ matchesFqn "msg/msg/Name" = true
    ∧ (Except.ok "msg/Name" : Except PyErr String) ≠ .ok "msg/msg/Name" :=
  ⟨by rfl, by rfl, by decide⟩

/-- C9 amended: denormalizing then re-normalizing is the identity on
every FQN `pkg/msg/Name` whose package and leaf are ordinary segments
(non-empty, not `.`, slash-free) and whose package is not itself `msg`. -/
theorem C9_denorm_norm_roundtrip (pkg name : String)
    (hp : validSeg pkg = true) (hn : validSeg name = true) (hm : pkg ≠ "msg") :
    (denormalize_msgtype (pkg ++ "/msg/" ++ name)).map normalize_msgtype =
      .ok (pkg ++ "/msg/" ++ name) := by
  obtain ⟨hpv, hps⟩ := validSeg_facts hp
  obtain ⟨hnv, hns⟩ := validSeg_facts hn
  have hdata : (pkg ++ "/msg/" ++ name).data =
      pkg.data ++ ('/' :: (msgSeg ++ '/' :: name.data)) := by
    have h1 : (pkg ++ "/msg/" ++ name).data =
        (pkg.data ++ "/msg/".data) ++ name.data := rfl
    rw [h1, List.append_assoc]
    rfl
  have hparts : pathParts ((pkg ++ "/msg/" ++ name).data) =
      [pkg.data, msgSeg, name.data] := by
    rw [hdata]
    exact pathParts_three pkg.data name.data hpv hnv hps hns
  have hsub : hasSub "/msg/".data ((pkg ++ "/msg/" ++ name).data) = true := by
    rw [hdata]
    have h2 : pkg.data ++ ('/' :: (msgSeg ++ '/' :: name.data)) =
        pkg.data ++ ("/msg/".data ++ name.data) := rfl
    rw [h2]
    exact hasSub_of_append "/msg/".data pkg.data name.data
  unfold denormalize_msgtype
  rw [if_pos hsub, hparts]
  have hred : pathStr (pParent (pParent [pkg.data, msgSeg, name.data]) ++
      pathParts (pName [pkg.data, msgSeg, name.data])) =
      pkg.data ++ '/' :: name.data := by
    have h3 : pName [pkg.data, msgSeg, name.data] = name.data := rfl
    rw [h3, pathParts_single name.data hnv hns]
    rfl
  rw [hred]
  have hnm : normalize_msgtype ⟨pkg.data ++ '/' :: name.data⟩ =
      pkg ++ "/msg/" ++ name := by
    unfold normalize_msgtype normalizeMsgtypeL
    have hd2 : (⟨pkg.data ++ '/' :: name.data⟩ : String).data =
        pkg.data ++ '/' :: name.data := rfl
    rw [hd2, pathParts_two pkg.data name.data hpv hnv hps hns]
    rw [if_neg (fun he : pName (pParent [pkg.data, name.data]) = msgSeg =>
      hm (String.ext (show pkg.data = "msg".data from he)))]
    have h4 : pName [pkg.data, name.data] = name.data := rfl
    rw [h4, pathParts_single name.data hnv hns]
    apply String.ext
    rw [hdata]
    rfl
  rw [Except.map, hnm]

/-- Witness for C9. -/
theorem C9_witness :
    validSeg "geometry_msgs" = true ∧ validSeg "Point" = true
    ∧ "geometry_msgs" ≠ "msg"
    ∧ (denormalize_msgtype ("geometry_msgs" ++ "/msg/" ++ "Point")).map
        normalize_msgtype = .ok ("geometry_msgs" ++ "/msg/" ++ "Point") :=
  ⟨by decide, by decide, by decide,
   C9_denorm_norm_roundtrip "geometry_msgs" "Point" (by decide) (by decide)
     (by decide)⟩

/-- Witness for C4. -/
theorem C4_witness :
    ("int32 x\n" : String).data.getLast? = some '\n'
    ∧ visitSpecification parsedMinimalScalar =
        [("pkg/msg/Foo", ([], [("x", .base (.pair "int32" 0))]))]
    ∧ gendefhash (visitSpecification parsedMinimalScalar) 1 40 "pkg/msg/Foo" [] =
        .ok (("int32 x\n", md5Hex "int32 x"), []) :=
  C4_trailing_newline_and_md5 (visitSpecification parsedMinimalScalar) 1 39
    "pkg/msg/Foo" [] (("int32 x\n", md5Hex "int32 x"), []) (by rfl) (by decide)

end Rosbags
